import Mathlib

/-!
Verification model of the configuration parser/rewriter in `aptproxies.py`
(classes `ProxyEntry`, `ProxyManager`, and the validation in `ProxyDialog`).

Lines and file contents are modelled as lists of characters.  Python's
`str.strip()` / regex `\s` are modelled over the ASCII whitespace characters
(space, tab, newline, carriage return, vertical tab, form feed); the
configuration files in question are ASCII.  Reading a file in text mode is
modelled with universal-newline translation followed by `readlines`-style
splitting.  Regular expressions are modelled by deterministic matchers; each
matcher commits where the corresponding regex cannot backtrack to a different
overall result (noted at the definition).
-/

abbrev Line := List Char

/-- ASCII whitespace, as matched by `\s` and stripped by `str.strip()`. -/
def isWsChar (c : Char) : Bool :=
  c == ' ' || c == '\t' || c == '\n' || c == '\r' || c == Char.ofNat 11 || c == Char.ofNat 12

/-- ASCII lower-casing, the effect of `re.IGNORECASE` comparison. -/
def toLowerAscii (c : Char) : Char :=
  if 65 ≤ c.toNat && c.toNat ≤ 90 then Char.ofNat (c.toNat + 32) else c

/-- ASCII upper-casing, the effect of Python's `str.upper()` on ASCII text. -/
def toUpperAscii (c : Char) : Char :=
  if 97 ≤ c.toNat && c.toNat ≤ 122 then Char.ofNat (c.toNat - 32) else c

def lowS (l : Line) : Line := l.map toLowerAscii

def upS (l : Line) : Line := l.map toUpperAscii

/-- Python `str.lstrip()`. -/
def lstrip (l : Line) : Line := l.dropWhile isWsChar

/-- Python `str.rstrip()`. -/
def rstrip (l : Line) : Line := (l.reverse.dropWhile isWsChar).reverse

/-- Python `str.strip()`. -/
def strip (l : Line) : Line := lstrip (rstrip l)

/-- Python `str.rstrip('\r\n')`, used before the whitespace-correction match. -/
def rstripCRLF (l : Line) : Line :=
  (l.reverse.dropWhile (fun c => c == '\n' || c == '\r')).reverse

/-- Universal-newline translation performed by reading a file in text mode:
`\r\n` and a lone `\r` both become `\n`. -/
def translateNewlines : List Char → List Char
  | [] => []
  | c :: rest =>
    if c = '\r' then
      match rest with
      | [] => ['\n']
      | d :: rest2 =>
        if d = '\n' then '\n' :: translateNewlines rest2
        else '\n' :: translateNewlines (d :: rest2)
    else c :: translateNewlines rest

def splitLinesAux : List Char → Line → List Line
  | [], acc => if acc.isEmpty then [] else [acc.reverse]
  | c :: cs, acc =>
    if c = '\n' then (acc.reverse ++ ['\n']) :: splitLinesAux cs []
    else splitLinesAux cs (c :: acc)

/-- Python `f.readlines()` on already newline-translated text: split after each
`\n`, keeping it; a final segment without `\n` is kept if non-empty. -/
def splitLines (s : List Char) : List Line := splitLinesAux s []

/-- Case-insensitive literal match (the `re.IGNORECASE` flag): consume the
keyword from the front of the input, returning the remainder. -/
def matchCI : List Char → Line → Option Line
  | [], s => some s
  | _ :: _, [] => none
  | k :: ks, c :: cs => if toLowerAscii c = toLowerAscii k then matchCI ks cs else none

def dropWs (s : Line) : Line := s.dropWhile isWsChar

/-- Substring test, Python's `needle in haystack`. -/
def containsSub (needle : Line) : Line → Bool
  | [] => needle.isPrefixOf []
  | c :: t => needle.isPrefixOf (c :: t) || containsSub needle t

/-- The optional comment prefix `(#\s*)?` of the directive regexes.  The group
is committed: when the head is `#` no other overall match is possible, since
`A`/`a` must follow the group. -/
def matchComment (s : Line) : Bool × Line :=
  match s with
  | [] => (false, [])
  | c :: rest => if c = '#' then (true, dropWs rest) else (false, c :: rest)

/-- The alternation `(HTTP|HTTPS|FTP|SOCKS)` under `re.IGNORECASE`, followed in
every regex by `::`.  Trying the longer keyword `HTTPS` first is equivalent to
the regex's ordered alternation with backtracking, because after `HTTP` the
regexes require `:`, which excludes `S`.  Returns the matched text and the
remainder. -/
def matchKind (s : Line) : Option (Line × Line) :=
  match matchCI "https".data s with
  | some r => some (s.take 5, r)
  | none =>
    match matchCI "http".data s with
    | some r => some (s.take 4, r)
    | none =>
      match matchCI "ftp".data s with
      | some r => some (s.take 3, r)
      | none =>
        match matchCI "socks".data s with
        | some r => some (s.take 5, r)
        | none => none

/-- The common core `(#\s*)?Acquire::(HTTP|HTTPS|FTP|SOCKS)::Proxy\s+"[^"]+"`
of the three directive regexes in `aptproxies.py` (parser strict and lenient
forms, the serializer's preserve filter, and the correction pattern), under
`re.IGNORECASE`.  Returns (commented, kind text, target, rest after the
closing quote).  `\s+` and `[^"]+` are committed: both are followed by a
non-matching mandatory character (`"`). -/
def matchDirCore (s : Line) : Option (Bool × Line × Line × Line) :=
  let (com, s1) := matchComment s
  match matchCI "acquire::".data s1 with
  | none => none
  | some s2 =>
    match matchKind s2 with
    | none => none
    | some (ktext, s3) =>
      match matchCI "::proxy".data s3 with
      | none => none
      | some s4 =>
        match s4 with
        | [] => none
        | c :: cs =>
          if isWsChar c then
            match dropWs cs with
            | [] => none
            | d :: s5 =>
              if d = '"' then
                let t := s5.takeWhile (fun x => x != '"')
                match s5.dropWhile (fun x => x != '"') with
                | [] => none
                | e :: rest =>
                  if e = '"' then
                    if t.isEmpty then none else some (com, ktext, t, rest)
                  else none
              else none
          else none

/-- The directive-line regex of `load_proxies_from_conf` applied with
`re.match`: core then `;$` when strict (`corrections_made_and_saved`), core
then `\s*;` (unanchored at the end) when lenient.  Returns
(commented, kind text, target). -/
def dirMatch (strict : Bool) (s : Line) : Option (Bool × Line × Line) :=
  match matchDirCore s with
  | none => none
  | some (com, ktext, target, rest) =>
    if strict then
      if rest = [';'] then some (com, ktext, target) else none
    else
      match dropWs rest with
      | [] => none
      | c :: _ => if c = ';' then some (com, ktext, target) else none

/-- `NAME_COMMENT_PREFIX` of `aptproxies.py`. -/
def annPrefixStr : Line := "## APT Proxy Editor Name: ".data

/-- `NAME_COMMENT_PREFIX.strip()`, the literal part of the annotation regex. -/
def annPrefixStripped : Line := "## APT Proxy Editor Name:".data

/-- The annotation regex `^## APT Proxy Editor Name:\s*(.*)` under
`re.IGNORECASE`, returning group 1 (`\s*` is greedy and `.` excludes `\n`). -/
def annMatch (s : Line) : Option Line :=
  match matchCI annPrefixStripped s with
  | some r => some ((dropWs r).takeWhile (fun c => c != '\n'))
  | none => none

/-- The correction pattern of `load_proxies_from_conf`:
core, then `(\s+)` (the problematic spacing), then `(;\s*)$`, applied to the
line with trailing `\r`/`\n` removed.  Returns the `core_proxy_line` group. -/
def correctionMatch (s : Line) : Option Line :=
  match matchDirCore s with
  | none => none
  | some (_, _, _, rest) =>
    match rest with
    | [] => none
    | c :: cs =>
      if isWsChar c then
        match dropWs cs with
        | [] => none
        | d :: tail =>
          if d = ';' then
            if tail.all isWsChar then some (s.take (s.length - rest.length)) else none
          else none
      else none

/-- One line of the whitespace-correction scan: if the correction pattern
matches, replace the line by `core + ";"` plus a newline; the Bool reports
whether the line changed. -/
def correctLine (l : Line) : Line × Bool :=
  let s := rstripCRLF l
  match correctionMatch s with
  | some core =>
    let corr := core ++ [';']
    if s = corr then (l, false) else (corr ++ ['\n'], true)
  | none => (l, false)

/-- The whole correction scan: the corrected line list and the
`any_line_changed_in_memory` flag. -/
def correctLines (ls : List Line) : List Line × Bool :=
  (ls.map (fun l => (correctLine l).1), ls.any (fun l => (correctLine l).2))

/-- `ProxyEntry` of `aptproxies.py`.  `id` is modelled as the numeric value of
the generated id string; diagnostics-only `original_lines` keeps the raw
lines.  The constructor upper-cases `proxy_type`, as `__init__` does. -/
structure ProxyEntry where
  id : Nat
  proxy_type : Line
  url : Line
  enabled : Bool
  name : Line
  original_lines : List Line
deriving Repr, DecidableEq

/-- The `ProxyEntry` constructor (which applies `.upper()` to the type). -/
def mkProxyEntry (id : Nat) (ptype url : Line) (enabled : Bool) (name : Line)
    (origLines : List Line) : ProxyEntry :=
  ⟨id, upS ptype, url, enabled, name, origLines⟩

/-- `ProxyEntry.to_conf_strings`. -/
def toConfStrings (p : ProxyEntry) : List Line :=
  (if p.name.isEmpty then [] else [annPrefixStr ++ p.name]) ++
  [(if p.enabled then [] else "# ".data) ++
    "Acquire::".data ++ p.proxy_type ++ "::Proxy \"".data ++ p.url ++ "\";".data]

/-- Diagnostics accumulated in `initial_syntax_error`, modelled structurally
(the code concatenates human-readable strings; the claims only depend on
which diagnostics were recorded, and on the malformed line's number and
truncated text). -/
inductive Diag where
  | ioRead
  | ioWriteCorrection
  | backupFailedCorrection
  | malformedLine (lineNum : Nat) (snippet : Line)
deriving Repr, DecidableEq

/-- The loop state of the parsing walk in `load_proxies_from_conf`. -/
structure ParseState where
  proxies : List ProxyEntry
  nextId : Nat
  diags : List Diag
  lastSeenName : Option Line
  collected : List Line
deriving Repr, DecidableEq

/-- One iteration of the parsing walk of `load_proxies_from_conf` for the
line with 0-based index `n`: append the raw line to the buffer; an annotation
line sets the pending label; a directive line materialises an entry and
resets label and buffer; any other non-blank non-comment line resets both and
records a malformed-line diagnostic when it contains `::Proxy`; a blank line
resets both; any other comment line does nothing further. -/
def parseStep (strict : Bool) (st : ParseState) (n : Nat) (l : Line) : ParseState :=
  let stripped := strip l
  let st1 := { st with collected := st.collected ++ [l] }
  match annMatch stripped with
  | some g => { st1 with lastSeenName := some (strip g) }
  | none =>
    match dirMatch strict stripped with
    | some (com, ktext, url) =>
      { st1 with
        nextId := st1.nextId + 1,
        proxies := st1.proxies ++
          [mkProxyEntry (st1.nextId + 1) (upS ktext) url (!com)
            (match st1.lastSeenName with | some nm => nm | none => []) st1.collected],
        lastSeenName := none,
        collected := [] }
    | none =>
      match stripped with
      | [] => { st1 with lastSeenName := none, collected := [] }
      | c :: _ =>
        if c = '#' then st1
        else
          let st2 :=
            if containsSub "::Proxy".data stripped then
              { st1 with diags := st1.diags ++ [.malformedLine (n + 1) (stripped.take 70)] }
            else st1
          { st2 with lastSeenName := none, collected := [] }

/-- The parsing walk over the remaining lines, `n` the index of the first. -/
def runParseAux (strict : Bool) : ParseState → Nat → List Line → ParseState
  | st, _, [] => st
  | st, n, l :: ls => runParseAux strict (parseStep strict st n l) (n + 1) ls

/-- `standard_types` of `_add_placeholder_proxies_if_needed`. -/
def standardTypes : List Line := ["HTTP".data, "HTTPS".data, "FTP".data, "SOCKS".data]

/-- The loop of `_add_placeholder_proxies_if_needed`: `existing` is the set of
upper-cased types of entries with a non-empty url or name (computed before the
loop); a placeholder is appended for each standard type not in it, unless an
all-empty entry of that type is already present. -/
def addPlaceholdersAux (existing : List Line) :
    List ProxyEntry × Nat → List Line → List ProxyEntry × Nat
  | (ps, nid), [] => (ps, nid)
  | (ps, nid), t :: ts =>
    if existing.contains t then addPlaceholdersAux existing (ps, nid) ts
    else if ps.any (fun p => upS p.proxy_type == t && p.url.isEmpty && p.name.isEmpty) then
      addPlaceholdersAux existing (ps, nid) ts
    else addPlaceholdersAux existing (ps ++ [mkProxyEntry (nid + 1) t [] false [] []], nid + 1) ts

/-- `_add_placeholder_proxies_if_needed`. -/
def addPlaceholders (ps : List ProxyEntry) (nid : Nat) : List ProxyEntry × Nat :=
  let existing := (ps.filter (fun p => !p.url.isEmpty || !p.name.isEmpty)).map
    (fun p => upS p.proxy_type)
  addPlaceholdersAux existing (ps, nid) standardTypes

/-- The input situations of `load_proxies_from_conf`: the file is missing, the
file exists but reading raises `IOError`, or the file is read successfully
with the given raw content; `canWrite` is `can_write_to_conf()`, and
`backupOk` / `writeOk` are the outcomes of the backup and of the corrected
write during the auto-correction pass. -/
inductive LoadInput where
  | missing
  | unreadable
  | content (text : List Char) (canWrite backupOk writeOk : Bool)

/-- The outcome of `load_proxies_from_conf`: `self.proxies`, `self.next_id`,
the accumulated `initial_syntax_error` diagnostics, and the returned
`corrections_made_and_saved` flag. -/
structure LoadResult where
  proxies : List ProxyEntry
  nextId : Nat
  diags : List Diag
  correctionsMade : Bool
deriving Repr, DecidableEq

/-- `load_proxies_from_conf`.  Missing file: placeholders only.  Unreadable
file: the `IOError` diagnostic is recorded and the method returns at once
(before `_add_placeholder_proxies_if_needed`).  Otherwise: the correction scan
runs when the file is writable; if any line changed, the corrected lines are
used with strict matching only when both backup and write succeed, else the
original lines are used with lenient matching and a diagnostic is added;
then the walk runs and placeholders are appended. -/
def loadProxies : LoadInput → LoadResult
  | .missing =>
    ⟨(addPlaceholders [] 0).1, (addPlaceholders [] 0).2, [], false⟩
  | .unreadable => ⟨[], 0, [.ioRead], false⟩
  | .content text canWrite backupOk writeOk =>
    let originalLines := splitLines (translateNewlines text)
    let changed := (correctLines originalLines).2
    let strict := canWrite && changed && backupOk && writeOk
    let linesToProcess := if strict then (correctLines originalLines).1 else originalLines
    let diags0 : List Diag :=
      if canWrite && changed then
        if backupOk then
          if writeOk then [] else [Diag.ioWriteCorrection]
        else [Diag.backupFailedCorrection]
      else []
    let st := runParseAux strict ⟨[], 0, diags0, none, []⟩ 0 linesToProcess
    ⟨(addPlaceholders st.proxies st.nextId).1, (addPlaceholders st.proxies st.nextId).2,
      st.diags, strict⟩

/-- The content of the configuration file after `load_proxies_from_conf`: the
corrected lines were written back exactly when the file was writable, a line
changed, and both backup and write succeeded; otherwise the file is
untouched. -/
def fileAfterLoad : LoadInput → Option (List Char)
  | .missing => none
  | .unreadable => none
  | .content text canWrite backupOk writeOk =>
    let originalLines := splitLines (translateNewlines text)
    let (corrected, changed) := correctLines originalLines
    if canWrite && changed && backupOk && writeOk then some (List.flatten corrected)
    else some text

/-- The emission condition of `save_proxies_to_conf`:
`proxy.url or proxy.name or (proxy.enabled and proxy.proxy_type)`. -/
def emits (p : ProxyEntry) : Bool :=
  !p.url.isEmpty || !p.name.isEmpty || (p.enabled && !p.proxy_type.isEmpty)

/-- The preserve filter of `save_proxies_to_conf`: keep every original line
whose stripped form matches neither the (lenient) directive regex nor the
annotation prefix. -/
def preservedOf (lines : List Line) : List Line :=
  lines.filter (fun l =>
    !(dirMatch false (strip l)).isSome && !(matchCI annPrefixStripped (strip l)).isSome)

/-- Render the `to_conf_strings` of one entry, each line written with a
trailing newline. -/
def entryLinePieces (p : ProxyEntry) : List (List Char) :=
  (toConfStrings p).map (fun l => l ++ ['\n'])

/-- The per-entry write pieces of the save loop: an emitted entry's lines,
followed by a separating blank line when the entry has a name and the
immediately following entry will also be emitted. -/
def renderPieces : List ProxyEntry → List (List Char)
  | [] => []
  | p :: rest =>
    (if emits p then
      entryLinePieces p ++
        (if !p.name.isEmpty && (match rest with | q :: _ => emits q | [] => false)
         then [['\n']] else [])
     else []) ++ renderPieces rest

/-- The sequence of strings written by `save_proxies_to_conf` after opening
the target with mode `w`: the preserved lines, then one blank separator line
when there are preserved lines, a non-empty entry list, and the last preserved
line is not blank, then the entry pieces.  `origText` is the current file
content (`none` when the file does not exist). -/
def savePieces (entries : List ProxyEntry) (origText : Option (List Char)) :
    List (List Char) :=
  let origLines := match origText with
    | some t => splitLines (translateNewlines t)
    | none => []
  let pres := preservedOf origLines
  pres ++
    (if !pres.isEmpty && !entries.isEmpty && !(strip (pres.getLastD [])).isEmpty
     then [['\n']] else []) ++
    renderPieces entries

/-- The full content written by `save_proxies_to_conf`. -/
def saveContent (entries : List ProxyEntry) (origText : Option (List Char)) : List Char :=
  List.flatten (savePieces entries origText)

/-- The successive contents of the target file during the save: empty right
after the `open(..., 'w')` truncation, then after each written piece. -/
def cumStates : List (List Char) → List (List Char)
  | [] => [[]]
  | p :: ps => [] :: (cumStates ps).map (fun s => p ++ s)

/-- The file states reachable while `save_proxies_to_conf` is writing. -/
def saveStates (entries : List ProxyEntry) (origText : Option (List Char)) :
    List (List Char) :=
  cumStates (savePieces entries origText)

/-- `is_proxy_type_unique`. -/
def isProxyTypeUnique (proxies : List ProxyEntry) (ptype : Line)
    (currentId : Option Nat) : Bool :=
  (proxies.filter (fun p =>
    upS p.proxy_type == upS ptype && p.enabled &&
      (match currentId with | none => true | some i => !(p.id == i)))).length == 0

/-- The raw field values held by the add/edit dialog. -/
structure DialogInput where
  name : Line
  ptype : Line
  url : Line
  enabled : Bool

/-- `ProxyDialog.validate`: the dialog strips (and upper-cases the type of)
its fields, then rejects a name containing the annotation prefix, an empty
type, an empty url for an enabled proxy, a url containing a space, and an
enabled proxy whose type already has another enabled entry. -/
def validateDialog (proxies : List ProxyEntry) (currentId : Option Nat)
    (d : DialogInput) : Bool :=
  let name := strip d.name
  let ptype := upS (strip d.ptype)
  let url := strip d.url
  if containsSub annPrefixStr name then false
  else if ptype.isEmpty then false
  else if url.isEmpty && d.enabled then false
  else if containsSub [' '] url then false
  else if d.enabled && !isProxyTypeUnique proxies ptype currentId then false
  else true

/-- `ProxyManager.add_proxy` (paired with `_generate_id`). -/
def addProxy (proxies : List ProxyEntry) (nextId : Nat) (name ptype url : Line)
    (enabled : Bool) : List ProxyEntry × Nat :=
  (proxies ++ [mkProxyEntry (nextId + 1) ptype url enabled name []], nextId + 1)

/-- `ProxyManager.update_proxy`: replace the fields of the first entry with
the given id (upper-casing the type), if any. -/
def updateFirst (eid : Nat) (name ptype url : Line) (enabled : Bool) :
    List ProxyEntry → List ProxyEntry
  | [] => []
  | p :: ps =>
    if p.id == eid then
      { p with name := name, proxy_type := upS ptype, url := url, enabled := enabled } :: ps
    else p :: updateFirst eid name ptype url enabled ps

/-- The add flow of `add_new_proxy_dialog`: `add_proxy` runs with the
dialog's stripped values only when validation passed. -/
def addViaDialog (proxies : List ProxyEntry) (nextId : Nat) (d : DialogInput) :
    List ProxyEntry × Nat :=
  if validateDialog proxies none d then
    addProxy proxies nextId (strip d.name) (upS (strip d.ptype)) (strip d.url) d.enabled
  else (proxies, nextId)

/-- The edit flow of `edit_selected_proxy_dialog`: `update_proxy` runs with
the dialog's stripped values only when validation passed. -/
def updateViaDialog (proxies : List ProxyEntry) (eid : Nat) (d : DialogInput) :
    List ProxyEntry :=
  if validateDialog proxies (some eid) d then
    updateFirst eid (strip d.name) (upS (strip d.ptype)) (strip d.url) d.enabled proxies
  else proxies

/-- The round-trip pipeline of the spec's idempotence property: the entry list
obtained by one load. -/
def loadOut (text : List Char) (cw bk wr : Bool) : List ProxyEntry :=
  (loadProxies (.content text cw bk wr)).proxies

/-- First serialization: save the loaded entries against the file as it
stands after the load (auto-correction may have rewritten it). -/
def firstSave (text : List Char) (cw bk wr : Bool) : List Char :=
  saveContent (loadOut text cw bk wr) (fileAfterLoad (.content text cw bk wr))

/-- Second serialization: re-parse the first save's output and save again. -/
def secondSave (text : List Char) (cw bk wr cw2 bk2 wr2 : Bool) : List Char :=
  saveContent (loadProxies (.content (firstSave text cw bk wr) cw2 bk2 wr2)).proxies
    (some (firstSave text cw bk wr))

/-! ### Character-level lemmas -/

theorem char_toNat_ofNat_of_lt {n : Nat} (h : n < 55296) : (Char.ofNat n).toNat = n := by
  have hv : n.isValidChar := Or.inl h
  rw [Char.ofNat, dif_pos hv]
  simp [Char.ofNatAux, Char.toNat, UInt32.toNat]

theorem low_inv_nonletter {c d : Char} (hd : d.toNat < 97 ∨ 122 < d.toNat)
    (h : toLowerAscii c = d) : c = d := by
  unfold toLowerAscii at h
  split at h
  · exfalso
    rename_i hc
    simp only [Bool.and_eq_true, decide_eq_true_eq] at hc
    have hn : (Char.ofNat (c.toNat + 32)).toNat = c.toNat + 32 :=
      char_toNat_ofNat_of_lt (by omega)
    rw [h] at hn
    omega
  · exact h

theorem up_low (c : Char) : toUpperAscii (toLowerAscii c) = toUpperAscii c := by
  unfold toLowerAscii toUpperAscii
  split
  · rename_i hc
    simp only [Bool.and_eq_true, decide_eq_true_eq] at hc
    have h1 : (Char.ofNat (c.toNat + 32)).toNat = c.toNat + 32 :=
      char_toNat_ofNat_of_lt (by omega)
    rw [if_pos (by simp [h1]; omega), if_neg (by simp; omega), h1]
    have h2 : c.toNat + 32 - 32 = c.toNat := by omega
    rw [h2, Char.ofNat_toNat]
  · rfl

theorem up_idem (c : Char) : toUpperAscii (toUpperAscii c) = toUpperAscii c := by
  unfold toUpperAscii
  split
  · rename_i hc
    simp only [Bool.and_eq_true, decide_eq_true_eq] at hc
    have h1 : (Char.ofNat (c.toNat - 32)).toNat = c.toNat - 32 :=
      char_toNat_ofNat_of_lt (by omega)
    rw [if_neg (by simp [h1]; omega)]
  · rfl

theorem isWs_toLower {c : Char} (h : isWsChar c = true) : toLowerAscii c = c := by
  unfold isWsChar at h
  simp only [Bool.or_eq_true, beq_iff_eq] at h
  rcases h with ((((h | h) | h) | h) | h) | h <;> subst h <;> decide

theorem not_isWs_of_low {c d : Char} (h : toLowerAscii c = d) (hd : isWsChar d = false) :
    isWsChar c = false := by
  by_contra hc
  rw [Bool.not_eq_false] at hc
  rw [isWs_toLower hc] at h
  rw [h] at hc
  rw [hc] at hd
  exact absurd hd (by simp)

theorem upS_congr {a b : Line} (h : lowS a = lowS b) : upS a = upS b := by
  unfold lowS at h
  unfold upS
  have ha : a.map toUpperAscii = (a.map toLowerAscii).map toUpperAscii := by
    rw [List.map_map]
    exact (List.map_congr_left (fun c _ => (up_low c).symm))
  have hb : b.map toUpperAscii = (b.map toLowerAscii).map toUpperAscii := by
    rw [List.map_map]
    exact (List.map_congr_left (fun c _ => (up_low c).symm))
  rw [ha, hb, h]

theorem upS_idem (a : Line) : upS (upS a) = upS a := by
  unfold upS
  rw [List.map_map]
  exact List.map_congr_left (fun c _ => up_idem c)

/-! ### List and whitespace lemmas -/

theorem dropWhile_append_all {p : Char → Bool} {w r : Line}
    (h : ∀ x ∈ w, p x = true) : List.dropWhile p (w ++ r) = List.dropWhile p r := by
  induction w with
  | nil => rfl
  | cons x xs ih =>
    simp only [List.cons_append, List.dropWhile_cons, h x (by simp)]
    exact ih (fun y hy => h y (by simp [hy]))

theorem dropWhile_cons_neg {p : Char → Bool} {x : Char} {r : Line} (h : p x = false) :
    List.dropWhile p (x :: r) = x :: r := by
  simp [List.dropWhile_cons, h]

theorem takeWhile_append_all {p : Char → Bool} {w : Line} {x : Char} {r : Line}
    (hw : ∀ y ∈ w, p y = true) (hx : p x = false) :
    List.takeWhile p (w ++ x :: r) = w := by
  induction w with
  | nil => simp [List.takeWhile_cons, hx]
  | cons y ys ih =>
    simp only [List.cons_append, List.takeWhile_cons, hw y (by simp)]
    simp only [if_true]
    rw [ih (fun z hz => hw z (by simp [hz]))]

theorem dropWhile_append_stop {p : Char → Bool} {w : Line} {x : Char} {r : Line}
    (hw : ∀ y ∈ w, p y = true) (hx : p x = false) :
    List.dropWhile p (w ++ x :: r) = x :: r := by
  rw [dropWhile_append_all hw, dropWhile_cons_neg hx]

theorem dropWs_append_stop {w : Line} {x : Char} {r : Line}
    (hw : w.all isWsChar = true) (hx : isWsChar x = false) :
    dropWs (w ++ x :: r) = x :: r :=
  dropWhile_append_stop (by simpa [List.all_eq_true] using hw) hx

/-! ### matchCI lemmas -/

theorem matchCI_sound : ∀ (kw s r : Line), matchCI kw s = some r →
    ∃ pre, s = pre ++ r ∧ lowS pre = lowS kw := by
  intro kw
  induction kw with
  | nil =>
    intro s r h
    simp only [matchCI, Option.some.injEq] at h
    exact ⟨[], by simp [h], rfl⟩
  | cons k ks ih =>
    intro s r h
    match s with
    | [] => simp [matchCI] at h
    | c :: cs =>
      simp only [matchCI] at h
      split at h
      · rename_i hc
        obtain ⟨pre, hpre, hlow⟩ := ih cs r h
        refine ⟨c :: pre, by simp [hpre], ?_⟩
        simp only [lowS, List.map_cons] at hlow ⊢
        rw [hc, hlow]
      · exact absurd h (by simp)

theorem matchCI_complete : ∀ (kw pre r : Line), lowS pre = lowS kw →
    matchCI kw (pre ++ r) = some r := by
  intro kw
  induction kw with
  | nil =>
    intro pre r h
    have : pre = [] := by
      have := congrArg List.length h
      simpa [lowS] using this
    simp [this, matchCI]
  | cons k ks ih =>
    intro pre r h
    match pre with
    | [] => simp [lowS] at h
    | c :: cs =>
      simp only [lowS, List.map_cons, List.cons.injEq] at h
      simp only [List.cons_append, matchCI, if_pos h.1]
      exact ih cs r h.2

theorem matchCI_length {kw s r : Line} (h : matchCI kw s = some r) :
    ∃ pre, s = pre ++ r ∧ lowS pre = lowS kw ∧ pre.length = kw.length := by
  obtain ⟨pre, h1, h2⟩ := matchCI_sound kw s r h
  refine ⟨pre, h1, h2, ?_⟩
  have := congrArg List.length h2
  simpa [lowS] using this

/-! ### Declarative characterization of the directive regexes -/

/-- The shape of the optional comment-prefix group `(#\s*)?`. -/
def CommentPre : Bool → Line → Prop
  | false, cpre => cpre = []
  | true, cpre => ∃ w, cpre = '#' :: w ∧ w.all isWsChar = true

/-- A text matching the kind alternation case-insensitively. -/
def KindText (ktext : Line) : Prop :=
  lowS ktext = "http".data ∨ lowS ktext = "https".data ∨
  lowS ktext = "ftp".data ∨ lowS ktext = "socks".data

/-- Declarative decomposition of a line matched by the common directive core
`(#\s*)?Acquire::(HTTP|HTTPS|FTP|SOCKS)::Proxy\s+"[^"]+"`, with `rest` the
text after the closing quote. -/
def CoreDecomp (s : Line) (com : Bool) (ktext target rest : Line) : Prop :=
  ∃ cpre kw1 kw2 wsp,
    s = cpre ++ kw1 ++ ktext ++ kw2 ++ wsp ++ ['"'] ++ target ++ ['"'] ++ rest ∧
    CommentPre com cpre ∧
    lowS kw1 = "acquire::".data ∧
    KindText ktext ∧
    lowS kw2 = "::proxy".data ∧
    wsp ≠ [] ∧ wsp.all isWsChar = true ∧
    target ≠ [] ∧ ¬ '"' ∈ target

theorem all_takeWhile (p : Char → Bool) (l : Line) :
    (l.takeWhile p).all p = true := by
  induction l with
  | nil => rfl
  | cons x xs ih =>
    by_cases h : p x
    · simp [List.takeWhile_cons, h, ih]
    · simp [List.takeWhile_cons, h]

theorem matchCI_none_head {k : Char} {ks : Line} {c : Char} {cs : Line}
    (h : toLowerAscii c ≠ toLowerAscii k) : matchCI (k :: ks) (c :: cs) = none := by
  simp [matchCI, h]

theorem take_of_append {a b : Line} {n : Nat} (h : a.length = n) : (a ++ b).take n = a := by
  subst h
  exact List.take_left a b

theorem lowS_length {a b : Line} (h : lowS a = lowS b) : a.length = b.length := by
  have := congrArg List.length h
  simpa [lowS] using this

theorem matchKind_piece (n : Nat) {s r : Line} {kw : List Char}
    (hm : matchCI kw s = some r) (hn : kw.length = n) :
    s = s.take n ++ r ∧ lowS (s.take n) = lowS kw := by
  obtain ⟨pre, hpre, hlow, hlen⟩ := matchCI_length hm
  have ht : s.take n = pre := by
    rw [hpre]
    exact take_of_append (by rw [hlen, hn])
  exact ⟨by rw [ht, hpre], by rw [ht]; exact hlow⟩

theorem matchKind_sound {s ktext r : Line} (h : matchKind s = some (ktext, r)) :
    s = ktext ++ r ∧ KindText ktext := by
  unfold matchKind at h
  split at h
  · rename_i r0 hm
    simp only [Option.some.injEq, Prod.mk.injEq] at h
    obtain ⟨h1, h2⟩ := h
    subst h1 h2
    obtain ⟨ha, hb⟩ := matchKind_piece 5 hm (by decide)
    exact ⟨ha, Or.inr (Or.inl (by rw [hb]; decide))⟩
  split at h
  · rename_i r0 hm
    simp only [Option.some.injEq, Prod.mk.injEq] at h
    obtain ⟨h1, h2⟩ := h
    subst h1 h2
    obtain ⟨ha, hb⟩ := matchKind_piece 4 hm (by decide)
    exact ⟨ha, Or.inl (by rw [hb]; decide)⟩
  split at h
  · rename_i r0 hm
    simp only [Option.some.injEq, Prod.mk.injEq] at h
    obtain ⟨h1, h2⟩ := h
    subst h1 h2
    obtain ⟨ha, hb⟩ := matchKind_piece 3 hm (by decide)
    exact ⟨ha, Or.inr (Or.inr (Or.inl (by rw [hb]; decide)))⟩
  split at h
  · rename_i r0 hm
    simp only [Option.some.injEq, Prod.mk.injEq] at h
    obtain ⟨h1, h2⟩ := h
    subst h1 h2
    obtain ⟨ha, hb⟩ := matchKind_piece 5 hm (by decide)
    exact ⟨ha, Or.inr (Or.inr (Or.inr (by rw [hb]; decide)))⟩
  · exact absurd h (by simp)

theorem matchCI_append (a b s : Line) :
    matchCI (a ++ b) s = (matchCI a s).bind (matchCI b) := by
  induction a generalizing s with
  | nil => simp [matchCI]
  | cons k ks ih =>
    match s with
    | [] => simp [matchCI]
    | c :: cs =>
      simp only [List.cons_append, matchCI]
      split
      · exact ih cs
      · simp

theorem lowS_cons_inv {x : Line} {c : Char} {l : Line} (h : lowS x = c :: l) :
    ∃ x0 xs, x = x0 :: xs ∧ toLowerAscii x0 = c ∧ lowS xs = l := by
  match x with
  | [] => simp [lowS] at h
  | x0 :: xs =>
    simp only [lowS, List.map_cons, List.cons.injEq] at h
    exact ⟨x0, xs, rfl, h.1, h.2⟩

theorem lowS_length_eq {a b : Line} (h : lowS a = b) : a.length = b.length := by
  have h2 := congrArg List.length h
  simpa [lowS] using h2

theorem matchKind_complete {ktext : Line} {c : Char} {r : Line}
    (hk : KindText ktext) (hc : toLowerAscii c = ':') :
    matchKind (ktext ++ c :: r) = some (ktext, c :: r) := by
  unfold matchKind
  rcases hk with hk | hk | hk | hk
  · -- ktext is "http" (ci); "https" fails at the fifth character
    have h5 : matchCI "https".data (ktext ++ c :: r) = none := by
      have hsplit : ("https".data : Line) = "http".data ++ ['s'] := by decide
      rw [hsplit, matchCI_append]
      rw [matchCI_complete "http".data ktext (c :: r) (by rw [hk]; decide)]
      simp only [Option.bind]
      exact matchCI_none_head (by rw [hc]; decide)
    have h4 : matchCI "http".data (ktext ++ c :: r) = some (c :: r) :=
      matchCI_complete "http".data ktext (c :: r) (by rw [hk]; decide)
    have htake : (ktext ++ c :: r).take 4 = ktext :=
      take_of_append ((lowS_length_eq hk).trans (by decide))
    simp only [h5, h4, htake]
  · -- ktext is "https" (ci)
    have h5 : matchCI "https".data (ktext ++ c :: r) = some (c :: r) :=
      matchCI_complete "https".data ktext (c :: r) (by rw [hk]; decide)
    have htake : (ktext ++ c :: r).take 5 = ktext :=
      take_of_append ((lowS_length_eq hk).trans (by decide))
    simp only [h5, htake]
  · -- ktext is "ftp" (ci): "https" and "http" fail at the first character
    obtain ⟨x0, xs, hx, hx0, _⟩ := lowS_cons_inv hk
    have hcons : ktext ++ c :: r = x0 :: (xs ++ c :: r) := by simp [hx]
    have hh1 : matchCI "https".data (ktext ++ c :: r) = none := by
      rw [hcons]; exact matchCI_none_head (by rw [hx0]; decide)
    have hh2 : matchCI "http".data (ktext ++ c :: r) = none := by
      rw [hcons]; exact matchCI_none_head (by rw [hx0]; decide)
    have h3 : matchCI "ftp".data (ktext ++ c :: r) = some (c :: r) :=
      matchCI_complete "ftp".data ktext (c :: r) (by rw [hk]; decide)
    have htake : (ktext ++ c :: r).take 3 = ktext :=
      take_of_append ((lowS_length_eq hk).trans (by decide))
    simp only [hh1, hh2, h3, htake]
  · -- ktext is "socks" (ci)
    obtain ⟨x0, xs, hx, hx0, _⟩ := lowS_cons_inv hk
    have hcons : ktext ++ c :: r = x0 :: (xs ++ c :: r) := by simp [hx]
    have hh1 : matchCI "https".data (ktext ++ c :: r) = none := by
      rw [hcons]; exact matchCI_none_head (by rw [hx0]; decide)
    have hh2 : matchCI "http".data (ktext ++ c :: r) = none := by
      rw [hcons]; exact matchCI_none_head (by rw [hx0]; decide)
    have hh3 : matchCI "ftp".data (ktext ++ c :: r) = none := by
      rw [hcons]; exact matchCI_none_head (by rw [hx0]; decide)
    have h4 : matchCI "socks".data (ktext ++ c :: r) = some (c :: r) :=
      matchCI_complete "socks".data ktext (c :: r) (by rw [hk]; decide)
    have htake : (ktext ++ c :: r).take 5 = ktext :=
      take_of_append ((lowS_length_eq hk).trans (by decide))
    simp only [hh1, hh2, hh3, h4, htake]

theorem matchComment_decomp {s : Line} {com : Bool} {s1 : Line}
    (h : matchComment s = (com, s1)) :
    ∃ cpre, s = cpre ++ s1 ∧ CommentPre com cpre := by
  match s with
  | [] =>
    simp only [matchComment, Prod.mk.injEq] at h
    obtain ⟨h1, h2⟩ := h
    subst h1 h2
    exact ⟨[], rfl, rfl⟩
  | c :: cs =>
    simp only [matchComment] at h
    split at h
    · rename_i hc
      subst hc
      simp only [Prod.mk.injEq] at h
      obtain ⟨h1, h2⟩ := h
      subst h1 h2
      refine ⟨'#' :: cs.takeWhile isWsChar, ?_, ?_⟩
      · simp only [List.cons_append, dropWs]
        rw [List.takeWhile_append_dropWhile]
      · exact ⟨cs.takeWhile isWsChar, rfl, all_takeWhile isWsChar cs⟩
    · simp only [Prod.mk.injEq] at h
      obtain ⟨h1, h2⟩ := h
      subst h1 h2
      exact ⟨[], rfl, rfl⟩

theorem matchDirCore_sound {s : Line} {com : Bool} {ktext target rest : Line}
    (h : matchDirCore s = some (com, ktext, target, rest)) :
    CoreDecomp s com ktext target rest := by
  unfold matchDirCore at h
  rcases hmc : matchComment s with ⟨com0, s1⟩
  rw [hmc] at h
  obtain ⟨cpre, hs, hcp⟩ := matchComment_decomp hmc
  dsimp only at h
  split at h
  · exact absurd h (by simp)
  rename_i s2 hci1
  split at h
  · exact absurd h (by simp)
  rename_i ktext0 s3 hkm
  split at h
  · exact absurd h (by simp)
  rename_i s4 hci2
  split at h
  · exact absurd h (by simp)
  rename_i c cs
  split at h
  swap
  · exact absurd h (by simp)
  rename_i hws
  split at h
  · exact absurd h (by simp)
  rename_i d s5 hdw
  split at h
  swap
  · exact absurd h (by simp)
  rename_i hd
  split at h
  · exact absurd h (by simp)
  rename_i e rest0 hdrop
  split at h
  swap
  · exact absurd h (by simp)
  rename_i he
  split at h
  · exact absurd h (by simp)
  rename_i hne
  simp only [Option.some.injEq, Prod.mk.injEq] at h
  obtain ⟨hcom, hkt, htg, hrest⟩ := h
  subst hcom hkt htg hrest
  subst hd he
  obtain ⟨pre1, hs1, hlow1⟩ := matchCI_sound _ _ _ hci1
  obtain ⟨hs2, hkind⟩ := matchKind_sound hkm
  obtain ⟨pre2, hs3, hlow2⟩ := matchCI_sound _ _ _ hci2
  have hcs : cs = cs.takeWhile isWsChar ++ ('"' :: s5) := by
    rw [← hdw]
    unfold dropWs
    rw [List.takeWhile_append_dropWhile]
  have hs5 : s5 = s5.takeWhile (fun x => x != '"') ++ ('"' :: rest0) := by
    rw [← hdrop, List.takeWhile_append_dropWhile]
  refine ⟨cpre, pre1, pre2, c :: cs.takeWhile isWsChar, ?_, hcp, ?_, hkind, ?_, ?_, ?_, ?_, ?_⟩
  · have key : ∀ tw tq : Line, cs = tw ++ '"' :: s5 → s5 = tq ++ '"' :: rest0 →
        s = cpre ++ pre1 ++ ktext0 ++ pre2 ++ (c :: tw) ++ ['"'] ++ tq ++ ['"'] ++ rest0 := by
      intro tw tq h1 h2
      rw [hs, hs1, hs2, hs3, h1, h2]
      simp
    exact key _ _ hcs hs5
  · rw [hlow1]; decide
  · rw [hlow2]; decide
  · simp
  · simp only [List.all_cons, hws, Bool.true_and]
    exact all_takeWhile isWsChar cs
  · intro hcon
    rw [hcon] at hne
    exact hne rfl
  · intro hq
    have := List.mem_takeWhile_imp hq
    simp at this

theorem kindText_ne_nil {ktext : Line} (hk : KindText ktext) : ktext ≠ [] := by
  rcases hk with hk | hk | hk | hk <;>
    · intro h
      rw [h] at hk
      simp [lowS] at hk

theorem matchComment_hash {w : Line} {c : Char} {r : Line}
    (hw : w.all isWsChar = true) (hc : isWsChar c = false) :
    matchComment ('#' :: (w ++ c :: r)) = (true, c :: r) := by
  have h1 : matchComment ('#' :: (w ++ c :: r)) = (true, dropWs (w ++ c :: r)) := by
    simp [matchComment]
  rw [h1, dropWs_append_stop hw hc]

theorem matchComment_nohash {c : Char} {r : Line} (hc : c ≠ '#') :
    matchComment (c :: r) = (false, c :: r) := by
  simp [matchComment, hc]

theorem matchDirCore_complete {s : Line} {com : Bool} {ktext target rest : Line}
    (h : CoreDecomp s com ktext target rest) :
    matchDirCore s = some (com, ktext, target, rest) := by
  obtain ⟨cpre, kw1, kw2, wsp, hs, hcp, hlow1, hkind, hlow2, hwne, hwall, htne, htq⟩ := h
  obtain ⟨a0, kw1t, hkw1, ha0, _⟩ :=
    lowS_cons_inv (show lowS kw1 = 'a' :: "cquire::".data by rw [hlow1])
  obtain ⟨q0, kw2t, hkw2, hq0, _⟩ :=
    lowS_cons_inv (show lowS kw2 = ':' :: ":proxy".data by rw [hlow2])
  obtain ⟨w0, w1, hwsp⟩ : ∃ w0 w1, wsp = w0 :: w1 := by
    match wsp, hwne with
    | x :: xs, _ => exact ⟨x, xs, rfl⟩
  have hw0 : isWsChar w0 = true := by
    rw [hwsp] at hwall
    simp only [List.all_cons, Bool.and_eq_true] at hwall
    exact hwall.1
  have hw1 : w1.all isWsChar = true := by
    rw [hwsp] at hwall
    simp only [List.all_cons, Bool.and_eq_true] at hwall
    exact hwall.2
  have ha0ws : isWsChar a0 = false := not_isWs_of_low ha0 (by decide)
  have ha0sharp : a0 ≠ '#' := by
    intro hcon
    rw [hcon] at ha0
    exact absurd ha0 (by decide)
  have htall : ∀ y ∈ target, (y != '"') = true := by
    intro y hy
    simp only [bne_iff_ne, ne_eq]
    intro hcon
    exact htq (hcon ▸ hy)
  -- the tail after the kind keyword block
  have hstep1 : matchComment s =
      (com, kw1 ++ (ktext ++ (kw2 ++ (wsp ++ ('"' :: (target ++ ('"' :: rest))))))) := by
    match com, hcp with
    | false, hcp =>
      have hcpre : cpre = [] := hcp
      subst hcpre
      rw [hs, hkw1]
      rw [show (([] : Line) ++ (a0 :: kw1t) ++ ktext ++ kw2 ++ wsp ++ ['"'] ++ target ++ ['"'] ++ rest) =
        a0 :: (kw1t ++ (ktext ++ (kw2 ++ (wsp ++ ('"' :: (target ++ ('"' :: rest))))))) from by simp]
      rw [matchComment_nohash ha0sharp]
      simp
    | true, hcp =>
      obtain ⟨w, hw, hwall2⟩ := hcp
      subst hw
      rw [hs, hkw1]
      rw [show (('#' :: w) ++ (a0 :: kw1t) ++ ktext ++ kw2 ++ wsp ++ ['"'] ++ target ++ ['"'] ++ rest) =
        '#' :: (w ++ a0 :: (kw1t ++ (ktext ++ (kw2 ++ (wsp ++ ('"' :: (target ++ ('"' :: rest)))))))) from by simp]
      rw [matchComment_hash hwall2 ha0ws]
      simp
  have hstep2 : matchCI "acquire::".data
      (kw1 ++ (ktext ++ (kw2 ++ (wsp ++ ('"' :: (target ++ ('"' :: rest))))))) =
      some (ktext ++ (kw2 ++ (wsp ++ ('"' :: (target ++ ('"' :: rest)))))) :=
    matchCI_complete _ kw1 _ (by rw [hlow1]; decide)
  have hstep3 : matchKind (ktext ++ (kw2 ++ (wsp ++ ('"' :: (target ++ ('"' :: rest)))))) =
      some (ktext, kw2 ++ (wsp ++ ('"' :: (target ++ ('"' :: rest))))) := by
    rw [hkw2]
    simp only [List.cons_append]
    exact matchKind_complete hkind hq0
  have hstep4 : matchCI "::proxy".data
      (kw2 ++ (wsp ++ ('"' :: (target ++ ('"' :: rest))))) =
      some (wsp ++ ('"' :: (target ++ ('"' :: rest)))) :=
    matchCI_complete _ kw2 _ (by rw [hlow2]; decide)
  have hstep5 : dropWs (w1 ++ ('"' :: (target ++ ('"' :: rest)))) =
      '"' :: (target ++ ('"' :: rest)) :=
    dropWs_append_stop hw1 (by decide)
  have hstep6 : (target ++ ('"' :: rest)).takeWhile (fun x => x != '"') = target :=
    takeWhile_append_all htall (by decide)
  have hstep7 : (target ++ ('"' :: rest)).dropWhile (fun x => x != '"') = '"' :: rest :=
    dropWhile_append_stop htall (by decide)
  have hte : target.isEmpty = false := by
    cases target with
    | nil => exact absurd rfl htne
    | cons a l => rfl
  unfold matchDirCore
  simp only [hstep1]
  simp only [hstep2]
  simp only [hstep3]
  simp only [hstep4]
  simp only [hwsp, List.cons_append]
  simp only [hw0, if_true, hstep5, hstep6, hstep7, hte, reduceIte]
  simp

theorem CoreDecomp_append {s : Line} {com : Bool} {ktext target rest : Line}
    (h : CoreDecomp s com ktext target rest) (ext : Line) :
    CoreDecomp (s ++ ext) com ktext target (rest ++ ext) := by
  obtain ⟨cpre, kw1, kw2, wsp, hs, h2, h3, h4, h5, h6, h7, h8, h9⟩ := h
  exact ⟨cpre, kw1, kw2, wsp, by rw [hs]; simp, h2, h3, h4, h5, h6, h7, h8, h9⟩

theorem dirMatch_lenient_sound {s : Line} {com : Bool} {ktext target : Line}
    (h : dirMatch false s = some (com, ktext, target)) :
    ∃ wsmid r2, CoreDecomp s com ktext target (wsmid ++ ';' :: r2) ∧
      wsmid.all isWsChar = true := by
  unfold dirMatch at h
  split at h
  · exact absurd h (by simp)
  rename_i com0 ktext0 target0 rest0 hcore
  simp only [Bool.false_eq_true, if_false] at h
  split at h
  · exact absurd h (by simp)
  rename_i c r0 hdw
  split at h
  swap
  · exact absurd h (by simp)
  rename_i hc
  simp only [Option.some.injEq, Prod.mk.injEq] at h
  obtain ⟨h1, h2, h3⟩ := h
  subst h1 h2 h3 hc
  have hr : rest0 = rest0.takeWhile isWsChar ++ (';' :: r0) := by
    rw [← hdw]
    unfold dropWs
    rw [List.takeWhile_append_dropWhile]
  exact ⟨rest0.takeWhile isWsChar, r0, hr ▸ matchDirCore_sound hcore,
    all_takeWhile isWsChar rest0⟩

theorem dirMatch_lenient_complete {s : Line} {com : Bool} {ktext target wsmid r2 : Line}
    (h : CoreDecomp s com ktext target (wsmid ++ ';' :: r2))
    (hw : wsmid.all isWsChar = true) :
    dirMatch false s = some (com, ktext, target) := by
  have h2 := matchDirCore_complete h
  unfold dirMatch
  simp only [h2]
  rw [show dropWs (wsmid ++ ';' :: r2) = ';' :: r2 from dropWs_append_stop hw (by decide)]
  simp

theorem dirMatch_strict_sound {s : Line} {com : Bool} {ktext target : Line}
    (h : dirMatch true s = some (com, ktext, target)) :
    CoreDecomp s com ktext target [';'] := by
  unfold dirMatch at h
  split at h
  · exact absurd h (by simp)
  rename_i com0 ktext0 target0 rest0 hcore
  simp only [if_true] at h
  split at h
  swap
  · exact absurd h (by simp)
  rename_i hr
  simp only [Option.some.injEq, Prod.mk.injEq] at h
  obtain ⟨h1, h2, h3⟩ := h
  subst h1 h2 h3 hr
  exact matchDirCore_sound hcore

theorem dirMatch_strict_complete {s : Line} {com : Bool} {ktext target : Line}
    (h : CoreDecomp s com ktext target [';']) :
    dirMatch true s = some (com, ktext, target) := by
  have h2 := matchDirCore_complete h
  unfold dirMatch
  simp only [h2, if_true, reduceIte]

theorem correctionMatch_decomp {s core : Line} (h : correctionMatch s = some core) :
    (∃ com ktext target, CoreDecomp core com ktext target []) ∧ ∃ rest, s = core ++ rest := by
  unfold correctionMatch at h
  split at h
  · exact absurd h (by simp)
  rename_i com0 ktext0 target0 rest0 hcore
  split at h
  · exact absurd h (by simp)
  rename_i c cs
  split at h
  swap
  · exact absurd h (by simp)
  rename_i hws
  split at h
  · exact absurd h (by simp)
  rename_i d tail hdw
  split at h
  swap
  · exact absurd h (by simp)
  rename_i hd
  split at h
  swap
  · exact absurd h (by simp)
  rename_i htail
  simp only [Option.some.injEq] at h
  obtain ⟨cpre, kw1, kw2, wsp, hs, h2, h3, h4, h5, h6, h7, h8, h9⟩ := matchDirCore_sound hcore
  have hC : s = (cpre ++ kw1 ++ ktext0 ++ kw2 ++ wsp ++ ['"'] ++ target0 ++ ['"']) ++ (c :: cs) := by
    rw [hs]
  have key : ∀ C : Line, s = C ++ c :: cs → s.take (s.length - (c :: cs).length) = C := by
    intro C hC2
    rw [hC2]
    have hn : (C ++ c :: cs).length - (c :: cs).length = C.length := by
      rw [List.length_append]; omega
    rw [hn]
    exact take_of_append rfl
  have hcore2 : core = cpre ++ kw1 ++ ktext0 ++ kw2 ++ wsp ++ ['"'] ++ target0 ++ ['"'] :=
    h.symm.trans (key _ hC)
  refine ⟨⟨com0, ktext0, target0, ?_⟩, ⟨c :: cs, by rw [hC, hcore2]⟩⟩
  exact ⟨cpre, kw1, kw2, wsp, by rw [hcore2]; simp, h2, h3, h4, h5, h6, h7, h8, h9⟩

theorem correction_core_no_rematch {core : Line} {com : Bool} {ktext target : Line}
    (h : CoreDecomp core com ktext target []) :
    correctionMatch (core ++ [';']) = none := by
  have h2 : CoreDecomp (core ++ [';']) com ktext target [';'] := by
    have h3 := CoreDecomp_append h [';']
    simpa using h3
  have h3 := matchDirCore_complete h2
  unfold correctionMatch
  simp only [h3]
  rw [if_neg (by decide)]

theorem rstripCRLF_semi_newline (x : Line) :
    rstripCRLF (x ++ [';', '\n']) = x ++ [';'] := by
  unfold rstripCRLF
  rw [List.reverse_append]
  rw [show (([';', '\n'] : Line).reverse ++ x.reverse) = '\n' :: ';' :: x.reverse from by simp]
  rw [List.dropWhile_cons, if_pos (by decide)]
  rw [dropWhile_cons_neg (by decide)]
  simp

theorem correctLine_idem (l : Line) :
    correctLine (correctLine l).1 = ((correctLine l).1, false) := by
  cases hcm : correctionMatch (rstripCRLF l) with
  | none =>
    have h1 : correctLine l = (l, false) := by
      unfold correctLine
      simp only [hcm]
    rw [h1]
    exact h1
  | some core =>
    by_cases heq : rstripCRLF l = core ++ [';']
    · have h1 : correctLine l = (l, false) := by
        unfold correctLine
        simp only [hcm]
        rw [if_pos heq]
      rw [h1]
      exact h1
    · have h1 : correctLine l = (core ++ [';', '\n'], true) := by
        unfold correctLine
        simp only [hcm]
        rw [if_neg heq]
        simp
      rw [h1]
      obtain ⟨⟨com, ktext, target, hdec⟩, _⟩ := correctionMatch_decomp hcm
      have h2 : rstripCRLF (core ++ [';', '\n']) = core ++ [';'] := rstripCRLF_semi_newline core
      have h3 : correctionMatch (core ++ [';']) = none := correction_core_no_rematch hdec
      unfold correctLine
      simp only [h2, h3]

theorem correctLines_idem (ls : List Line) :
    correctLines (correctLines ls).1 = ((correctLines ls).1, false) := by
  unfold correctLines
  simp only [List.map_map, List.any_map, Function.comp, Prod.mk.injEq]
  constructor
  · refine List.map_congr_left (fun x _ => ?_)
    have h := congrArg Prod.fst (correctLine_idem x)
    simpa using h
  · rw [List.any_eq_false]
    intro x _
    have h := congrArg Prod.snd (correctLine_idem x)
    simpa using h

/-! ### strip, splitLines and newline-translation lemmas -/

theorem rstrip_append_ws {x w : Line} (hw : w.all isWsChar = true) :
    rstrip (x ++ w) = rstrip x := by
  unfold rstrip
  rw [List.reverse_append]
  rw [dropWhile_append_all]
  intro y hy
  rw [List.mem_reverse] at hy
  exact (List.all_eq_true.mp hw) y hy

theorem strip_append_ws {x w : Line} (hw : w.all isWsChar = true) :
    strip (x ++ w) = strip x := by
  unfold strip
  rw [rstrip_append_ws hw]

theorem strip_newline (b : Line) : strip (b ++ ['\n']) = strip b :=
  strip_append_ws (by decide)

theorem lstrip_cons_neg {c : Char} {r : Line} (h : isWsChar c = false) :
    lstrip (c :: r) = c :: r :=
  dropWhile_cons_neg h

theorem rstrip_append_neg {x : Line} {c : Char} (h : isWsChar c = false) :
    rstrip (x ++ [c]) = x ++ [c] := by
  unfold rstrip
  rw [List.reverse_append]
  simp only [List.reverse_cons, List.reverse_nil, List.nil_append, List.singleton_append]
  rw [dropWhile_cons_neg h]
  simp

theorem strip_eq_self_cons_append {c : Char} {m : Line} {d : Char}
    (hc : isWsChar c = false) (hd : isWsChar d = false) :
    strip (c :: m ++ [d]) = c :: m ++ [d] := by
  unfold strip
  rw [show (c :: m ++ [d] : Line) = (c :: m) ++ [d] from by simp]
  rw [rstrip_append_neg hd]
  rw [show ((c :: m) ++ [d] : Line) = c :: (m ++ [d]) from by simp]
  exact lstrip_cons_neg hc

theorem dropWhile_cases (p : Char → Bool) (l : Line) :
    l.dropWhile p = [] ∨ ∃ c r, l.dropWhile p = c :: r ∧ p c = false := by
  induction l with
  | nil => exact Or.inl rfl
  | cons x xs ih =>
    rw [List.dropWhile_cons]
    by_cases h : p x
    · simpa [h] using ih
    · exact Or.inr ⟨x, xs, by simp [h], by simpa using h⟩

theorem rstrip_cases (l : Line) :
    rstrip l = [] ∨ ∃ x d, rstrip l = x ++ [d] ∧ isWsChar d = false := by
  unfold rstrip
  rcases dropWhile_cases isWsChar l.reverse with h | ⟨c, r, h, hc⟩
  · exact Or.inl (by rw [h]; rfl)
  · exact Or.inr ⟨r.reverse, c, by rw [h]; simp, hc⟩

theorem lstrip_cases (l : Line) :
    lstrip l = [] ∨ ∃ c r, lstrip l = c :: r ∧ isWsChar c = false :=
  dropWhile_cases isWsChar l

theorem dropWhile_append_last {p : Char → Bool} {d : Char} (hd : p d = false) (a : Line) :
    ∃ a2, (a ++ [d]).dropWhile p = a2 ++ [d] := by
  induction a with
  | nil =>
    refine ⟨[], ?_⟩
    simpa using dropWhile_cons_neg (r := []) hd
  | cons c a2 ih =>
    by_cases h : p c
    · simpa [List.dropWhile_cons, h] using ih
    · exact ⟨c :: a2, by simp [List.dropWhile_cons, h]⟩

theorem strip_idem (l : Line) : strip (strip l) = strip l := by
  rcases rstrip_cases l with h | ⟨x, d, h, hd⟩
  · unfold strip
    rw [h]
    rfl
  · have h1 : strip l = lstrip (x ++ [d]) := by
      unfold strip
      rw [h]
    obtain ⟨a2, ha2⟩ : ∃ a2, lstrip (x ++ [d]) = a2 ++ [d] := dropWhile_append_last hd x
    rcases lstrip_cases (x ++ [d]) with h2 | ⟨c, r, h2, hc⟩
    · rw [ha2] at h2
      simp at h2
    · have hcr : a2 ++ [d] = c :: r := by rw [← ha2, h2]
      calc strip (strip l) = strip (a2 ++ [d]) := by rw [h1, ha2]
        _ = lstrip (a2 ++ [d]) := by unfold strip; rw [rstrip_append_neg hd]
        _ = lstrip (c :: r) := by rw [hcr]
        _ = c :: r := lstrip_cons_neg hc
        _ = strip l := by rw [h1, h2]

/-- A line as produced by reading a newline-terminated file: a newline-free
body followed by one newline. -/
def NLLine (l : Line) : Prop := ∃ b, l = b ++ ['\n'] ∧ '\n' ∉ b

theorem splitLinesAux_nil (acc : Line) :
    splitLinesAux [] acc = if acc.isEmpty then [] else [acc.reverse] := rfl

theorem splitLinesAux_cons (c : Char) (cs : List Char) (acc : Line) :
    splitLinesAux (c :: cs) acc =
      if c = '\n' then (acc.reverse ++ ['\n']) :: splitLinesAux cs []
      else splitLinesAux cs (c :: acc) := rfl

theorem splitLinesAux_flatten : ∀ (s : List Char) (acc : Line),
    (splitLinesAux s acc).flatten = acc.reverse ++ s := by
  intro s
  induction s with
  | nil =>
    intro acc
    rw [splitLinesAux_nil]
    by_cases h : acc.isEmpty
    · have h2 : acc = [] := by simpa [List.isEmpty_iff] using h
      simp [h, h2]
    · simp [h]
  | cons c cs ih =>
    intro acc
    rw [splitLinesAux_cons]
    by_cases h : c = '\n'
    · subst h
      rw [if_pos rfl, List.flatten_cons, ih []]
      simp
    · rw [if_neg h, ih (c :: acc)]
      simp

theorem splitLines_flatten_eq (s : List Char) : (splitLines s).flatten = s := by
  unfold splitLines
  rw [splitLinesAux_flatten]
  simp

theorem splitLinesAux_NL : ∀ (s : List Char) (acc : Line), '\n' ∉ acc →
    ((∃ b, s = b ++ ['\n']) ∨ (s = [] ∧ acc = [])) →
    ∀ l ∈ splitLinesAux s acc, NLLine l := by
  intro s
  induction s with
  | nil =>
    intro acc hacc hend l hl
    rcases hend with ⟨b, hb⟩ | ⟨_, hacc2⟩
    · exact absurd (congrArg List.length hb) (by simp)
    · subst hacc2
      simp [splitLinesAux_nil] at hl
  | cons c cs ih =>
    intro acc hacc hend l hl
    rw [splitLinesAux_cons] at hl
    by_cases h : c = '\n'
    · subst h
      rw [if_pos rfl] at hl
      rcases List.mem_cons.mp hl with hl | hl
      · exact ⟨acc.reverse, hl, by simpa using hacc⟩
      · refine ih [] (by simp) ?_ l hl
        rcases hend with ⟨b, hb⟩ | ⟨hs, _⟩
        · match b, hb with
          | [], hb =>
            simp only [List.nil_append, List.cons.injEq] at hb
            exact Or.inr ⟨hb.2, rfl⟩
          | b0 :: b2, hb =>
            simp only [List.cons_append, List.cons.injEq] at hb
            exact Or.inl ⟨b2, hb.2⟩
        · exact absurd hs (by simp)
    · rw [if_neg h] at hl
      refine ih (c :: acc) ?_ ?_ l hl
      · intro hcon
        rcases List.mem_cons.mp hcon with hcon | hcon
        · exact h hcon.symm
        · exact hacc hcon
      · rcases hend with ⟨b, hb⟩ | ⟨hs, _⟩
        · match b, hb with
          | [], hb =>
            simp only [List.nil_append, List.cons.injEq] at hb
            exact absurd hb.1 h
          | b0 :: b2, hb =>
            simp only [List.cons_append, List.cons.injEq] at hb
            exact Or.inl ⟨b2, hb.2⟩
        · exact absurd hs (by simp)

theorem splitLines_NL {s : List Char} (h : s = [] ∨ ∃ b, s = b ++ ['\n']) :
    ∀ l ∈ splitLines s, NLLine l := by
  unfold splitLines
  rcases h with h | h
  · subst h
    exact splitLinesAux_NL [] [] (by simp) (Or.inr ⟨rfl, rfl⟩)
  · exact splitLinesAux_NL s [] (by simp) (Or.inl h)

theorem splitLinesAux_through : ∀ (b : Line) (rest : List Char) (acc : Line), '\n' ∉ b →
    splitLinesAux (b ++ '\n' :: rest) acc = (acc.reverse ++ b ++ ['\n']) :: splitLinesAux rest [] := by
  intro b
  induction b with
  | nil =>
    intro rest acc _
    rw [List.nil_append, splitLinesAux_cons, if_pos rfl]
    simp
  | cons c b2 ih =>
    intro rest acc hb
    have hc : c ≠ '\n' := fun hcon => hb (by simp [hcon])
    rw [show ((c :: b2 : Line) ++ '\n' :: rest) = c :: (b2 ++ '\n' :: rest) from by simp]
    rw [splitLinesAux_cons, if_neg hc]
    rw [ih rest (c :: acc) (fun hcon => hb (by simp [hcon]))]
    simp

theorem splitLines_flatten_of_NL : ∀ (ls : List Line), (∀ l ∈ ls, NLLine l) →
    splitLines (ls.flatten) = ls := by
  intro ls
  induction ls with
  | nil => intro _; rfl
  | cons l ls2 ih =>
    intro h
    obtain ⟨b, hb, hbn⟩ := h l (by simp)
    rw [List.flatten_cons, hb]
    rw [show ((b ++ ['\n']) ++ ls2.flatten) = b ++ '\n' :: ls2.flatten from by simp]
    unfold splitLines
    rw [splitLinesAux_through b ls2.flatten [] hbn]
    rw [show (([] : Line).reverse ++ b ++ ['\n']) = b ++ ['\n'] from by simp]
    rw [← hb]
    have h2 := ih (fun x hx => h x (by simp [hx]))
    unfold splitLines at h2
    rw [h2]

theorem mem_of_mem_splitLinesAux : ∀ (s : List Char) (acc l : Line),
    l ∈ splitLinesAux s acc → ∀ c ∈ l, c ∈ acc ∨ c ∈ s := by
  intro s
  induction s with
  | nil =>
    intro acc l hl c hc
    rw [splitLinesAux_nil] at hl
    by_cases h : acc.isEmpty
    · simp [h] at hl
    · rw [if_neg h] at hl
      have hl2 : l = acc.reverse := List.mem_singleton.mp hl
      subst hl2
      exact Or.inl (by simpa using hc)
  | cons c0 cs ih =>
    intro acc l hl c hc
    rw [splitLinesAux_cons] at hl
    by_cases h : c0 = '\n'
    · subst h
      rw [if_pos rfl] at hl
      rcases List.mem_cons.mp hl with hl | hl
      · subst hl
        rcases List.mem_append.mp hc with h2 | h2
        · exact Or.inl (by simpa using h2)
        · simp only [List.mem_singleton] at h2
          exact Or.inr (by simp [h2])
      · rcases ih [] l hl c hc with h2 | h2
        · simp at h2
        · exact Or.inr (by simp [h2])
    · rw [if_neg h] at hl
      rcases ih (c0 :: acc) l hl c hc with h2 | h2
      · rcases List.mem_cons.mp h2 with h3 | h3
        · exact Or.inr (by simp [h3])
        · exact Or.inl h3
      · exact Or.inr (by simp [h2])

theorem mem_of_mem_splitLines {s : List Char} {l : Line} (hl : l ∈ splitLines s)
    {c : Char} (hc : c ∈ l) : c ∈ s := by
  rcases mem_of_mem_splitLinesAux s [] l hl c hc with h | h
  · simp at h
  · exact h

theorem translate_nil : translateNewlines [] = [] := rfl

theorem translate_cr_nl (rest : List Char) :
    translateNewlines ('\r' :: '\n' :: rest) = '\n' :: translateNewlines rest := rfl

theorem translate_cr_only : translateNewlines ['\r'] = ['\n'] := rfl

theorem translate_cr_other {d : Char} (hd : d ≠ '\n') (rest : List Char) :
    translateNewlines ('\r' :: d :: rest) = '\n' :: translateNewlines (d :: rest) := by
  rw [translateNewlines.eq_def]
  simp [if_neg hd]

theorem translate_other {d : Char} (hd : d ≠ '\r') (rest : List Char) :
    translateNewlines (d :: rest) = d :: translateNewlines rest := by
  rw [translateNewlines.eq_def]
  simp [if_neg hd]

theorem crFree_translate (s : List Char) : '\r' ∉ translateNewlines s := by
  induction s using translateNewlines.induct with
  | case1 => simp [translate_nil]
  | case2 => simp [translate_cr_only]
  | case3 rest2 ih =>
    rw [translate_cr_nl]
    simp only [List.mem_cons]
    rintro (h | h)
    · exact absurd h (by decide)
    · exact ih h
  | case4 d rest2 hd ih =>
    rw [translate_cr_other hd]
    simp only [List.mem_cons]
    rintro (h | h)
    · exact absurd h (by decide)
    · exact ih h
  | case5 d rest2 hd ih =>
    rw [translate_other hd]
    simp only [List.mem_cons]
    rintro (h | h)
    · exact hd h.symm
    · exact ih h

theorem translate_eq_self {s : List Char} (h : '\r' ∉ s) : translateNewlines s = s := by
  induction s using translateNewlines.induct with
  | case1 => rfl
  | case2 => exact absurd (by simp) h
  | case3 rest2 ih => exact absurd (by simp) h
  | case4 d rest2 hd ih => exact absurd (by simp) h
  | case5 d rest2 hd ih =>
    rw [translate_other hd]
    rw [ih (fun hc => h (by simp [hc]))]

theorem annMatch_none_of_head_ne {c : Char} {r : Line} (h : c ≠ '#') :
    annMatch (c :: r) = none := by
  have hker : matchCI annPrefixStripped (c :: r) = none := by
    have h0 : annPrefixStripped = '#' :: "# APT Proxy Editor Name:".data := by decide
    rw [h0]
    apply matchCI_none_head
    intro hcon
    have h2 : c = '#' := low_inv_nonletter (Or.inl (by decide)) (by rw [hcon]; decide)
    exact h h2
  unfold annMatch
  rw [hker]

/-! ### Claim theorems -/

/-- Modelled from the spec: the claim's notion of a line "matching the
canonical pattern with at most trailing whitespace after the terminating
semicolon (no other trailing content)": the canonical directive core followed
immediately by the semicolon and then only whitespace. -/
def claimedDirectiveShape (l : Line) : Bool :=
  match matchDirCore l with
  | some (_, _, _, rest) =>
    match rest with
    | c :: t => if c = ';' then t.all isWsChar else false
    | [] => false
  | none => false

/-- C4 counterexample: the claim "when auto-correction was not applied, a
directive line is recognized by the parser exactly when it matches the
canonical pattern with at most trailing whitespace after the terminating
semicolon (no other trailing content)" is false: the lenient regex
`...\s*;` is not anchored at the end of the line, so it also recognizes
arbitrary trailing content after the semicolon, and whitespace between the
closing quote and the semicolon. -/
theorem claim_C4_counterexample :
    (dirMatch false (strip "Acquire::HTTP::Proxy \"x\";junk".data)).isSome = true ∧
    claimedDirectiveShape (strip "Acquire::HTTP::Proxy \"x\";junk".data) = false ∧
    (dirMatch false (strip "Acquire::HTTP::Proxy \"x\" ;".data)).isSome = true ∧
    claimedDirectiveShape (strip "Acquire::HTTP::Proxy \"x\" ;".data) = false := by
  refine ⟨?_, ?_, ?_, ?_⟩ <;> decide

/-- C4 amended: both matchers work on the whitespace-stripped line.  Lenient
matching (used when auto-correction was not applied and saved) recognizes a
line exactly when it decomposes as the canonical core — optional `#` comment
prefix with whitespace, `Acquire::`, a kind, `::Proxy`, whitespace, and a
quoted non-empty quote-free target — followed by optional whitespace, a
semicolon, and then ARBITRARY trailing content.  Strict matching (used after
a saved auto-correction) recognizes a line exactly when the semicolon
immediately follows the closing quote and ends the line. -/
theorem claim_C4_amended (s : Line) :
    ((dirMatch false s).isSome = true ↔
      ∃ com ktext target wsmid r2, CoreDecomp s com ktext target (wsmid ++ ';' :: r2) ∧
        wsmid.all isWsChar = true) ∧
    ((dirMatch true s).isSome = true ↔
      ∃ com ktext target, CoreDecomp s com ktext target [';']) := by
  constructor
  · constructor
    · intro h
      rw [Option.isSome_iff_exists] at h
      obtain ⟨⟨com, ktext, target⟩, hv⟩ := h
      obtain ⟨wsmid, r2, hd, hw⟩ := dirMatch_lenient_sound hv
      exact ⟨com, ktext, target, wsmid, r2, hd, hw⟩
    · rintro ⟨com, ktext, target, wsmid, r2, hd, hw⟩
      rw [dirMatch_lenient_complete hd hw]
      rfl
  · constructor
    · intro h
      rw [Option.isSome_iff_exists] at h
      obtain ⟨⟨com, ktext, target⟩, hv⟩ := h
      exact ⟨com, ktext, target, dirMatch_strict_sound hv⟩
    · rintro ⟨com, ktext, target, hd⟩
      rw [dirMatch_strict_complete hd]
      rfl

/-- C7: running the whitespace corrector on lines it has already corrected
changes no line: the correction pattern matches no line of the corrected
output, so the second pass returns the same lines and reports no change. -/
theorem claim_C7_correction_idempotent (ls : List Line) :
    correctLines (correctLines ls).1 = ((correctLines ls).1, false) :=
  correctLines_idem ls

/-- C3: on an unreadable file `load_proxies_from_conf` returns before
`_add_placeholder_proxies_if_needed` runs, so the entry list stays empty and
no kind is represented — although a missing file does get a placeholder for
each of the four standard kinds.  This contradicts the spec's "placeholders
are still added" for the unreadable case. -/
theorem claim_C3_unreadable_no_placeholders :
    (loadProxies .unreadable).proxies = [] ∧
    (loadProxies .unreadable).diags = [.ioRead] ∧
    ((loadProxies .missing).proxies.map (fun p => p.proxy_type)) = standardTypes := by
  refine ⟨rfl, rfl, ?_⟩
  decide

/-- C10 counterexample: a comment line that is neither an annotation line nor
a directive line does not leave the raw-line buffer unchanged: the walk
appends every line to the buffer before dispatching on it. -/
theorem claim_C10_counterexample :
    (parseStep false ⟨[], 0, [], none, []⟩ 0 "# just a comment\n".data).collected ≠
      (⟨[], 0, [], none, []⟩ : ParseState).collected := by
  decide

/-- C10 amended: during the parse walk, every line whose stripped form begins
with the comment marker and matches neither the annotation pattern nor the
directive pattern leaves the pending label, the parsed entries and the
diagnostics unchanged and only appends itself to the raw-line buffer (no
reset), so an annotation still attaches to a directive that follows it even
when ordinary comment lines intervene. -/
theorem claim_C10_amended (strict : Bool) (st : ParseState) (n : Nat) (l : Line)
    (hc : (strip l).head? = some '#')
    (hann : annMatch (strip l) = none)
    (hdir : dirMatch strict (strip l) = none) :
    parseStep strict st n l = { st with collected := st.collected ++ [l] } := by
  obtain ⟨r, hr⟩ : ∃ r, strip l = '#' :: r := by
    cases hs : strip l with
    | nil =>
      rw [hs] at hc
      simp at hc
    | cons c r =>
      rw [hs] at hc
      simp only [List.head?_cons, Option.some.injEq] at hc
      exact ⟨r, by rw [hc]⟩
  rw [hr] at hann hdir
  unfold parseStep
  simp only [hr, hann, hdir]
  simp

/-- C10 witness. -/
theorem claim_C10_witness :
    parseStep false ⟨[], 7, [], some "Nm".data, ["x\n".data]⟩ 3 "# c\n".data =
      ⟨[], 7, [], some "Nm".data, ["x\n".data, "# c\n".data]⟩ :=
  claim_C10_amended false ⟨[], 7, [], some "Nm".data, ["x\n".data]⟩ 3 "# c\n".data
    (by decide) (by decide) (by decide)

/-- C6 counterexample: for the comment line `# Acquire::HTTP::Proxy broken`,
which contains the directive keyword `::Proxy` and fails the canonical
pattern, the parser records NO malformed-line diagnostic and does NOT reset
the pending label: the label `X` set two lines earlier still attaches to the
following directive.  The diagnostic branch only fires for non-comment
lines. -/
theorem claim_C6_counterexample :
    (runParseAux false ⟨[], 0, [], none, []⟩ 0
      ["## APT Proxy Editor Name: X\n".data,
       "# Acquire::HTTP::Proxy broken\n".data,
       "Acquire::HTTP::Proxy \"u\";\n".data]).diags = [] ∧
    ((runParseAux false ⟨[], 0, [], none, []⟩ 0
      ["## APT Proxy Editor Name: X\n".data,
       "# Acquire::HTTP::Proxy broken\n".data,
       "Acquire::HTTP::Proxy \"u\";\n".data]).proxies.map (fun p => p.name)) = ["X".data] ∧
    containsSub "::Proxy".data (strip "# Acquire::HTTP::Proxy broken\n".data) = true ∧
    dirMatch false (strip "# Acquire::HTTP::Proxy broken\n".data) = none ∧
    annMatch (strip "# Acquire::HTTP::Proxy broken\n".data) = none := by
  refine ⟨?_, ?_, ?_, ?_, ?_⟩ <;> decide

/-- C6 amended: malformed-line diagnostics are recorded only for non-blank
NON-comment lines that fail the directive pattern; such a line resets the
pending label and the raw-line buffer, and a diagnostic (with the 1-based
line number and the stripped line truncated to 70 characters) is recorded
exactly when the line contains `::Proxy` (case-sensitively).  A comment line
that fails every pattern is skipped silently (see the C10 theorem). -/
theorem claim_C6_amended (strict : Bool) (st : ParseState) (n : Nat) (l : Line)
    (hne : strip l ≠ [])
    (hnc : (strip l).head? ≠ some '#')
    (hdir : dirMatch strict (strip l) = none) :
    parseStep strict st n l =
      { st with
        collected := [],
        lastSeenName := none,
        diags := st.diags ++
          (if containsSub "::Proxy".data (strip l) then
            [.malformedLine (n + 1) ((strip l).take 70)] else []) } := by
  obtain ⟨c, r, hr, hcne⟩ : ∃ c r, strip l = c :: r ∧ c ≠ '#' := by
    cases hs : strip l with
    | nil => exact absurd hs hne
    | cons c r =>
      refine ⟨c, r, rfl, ?_⟩
      intro hcon
      rw [hcon] at hs
      exact hnc (by rw [hs]; rfl)
  have hann : annMatch (c :: r) = none := annMatch_none_of_head_ne hcne
  rw [hr] at hdir
  unfold parseStep
  simp only [hr, hann, hdir, if_neg hcne]
  rw [← hr]
  by_cases hcs : containsSub "::Proxy".data (strip l)
  · simp only [hcs, if_true]
  · simp only [hcs, if_false, Bool.false_eq_true]
    simp

/-- C6 witness: the malformed non-comment line from the spec's scenario 5
resets the state and records one diagnostic. -/
theorem claim_C6_witness :
    parseStep false ⟨[], 0, [], none, []⟩ 0 "Acquire::SOCKS::Proxy BADSYNTAX\n".data =
      { (⟨[], 0, [], none, []⟩ : ParseState) with
        collected := [],
        lastSeenName := none,
        diags := ([] : List Diag) ++
          (if containsSub "::Proxy".data (strip "Acquire::SOCKS::Proxy BADSYNTAX\n".data) then
            [.malformedLine (0 + 1) ((strip "Acquire::SOCKS::Proxy BADSYNTAX\n".data).take 70)]
          else []) } :=
  claim_C6_amended false ⟨[], 0, [], none, []⟩ 0 "Acquire::SOCKS::Proxy BADSYNTAX\n".data
    (by decide) (by decide) (by decide)

/-- C2: every original line that is neither a recognized directive line
(commented or not, any kind, lenient match) nor a recognized annotation line
appears verbatim and in its original relative order among the strings that
`save_proxies_to_conf` writes: the preserve filter is written first, before
the separator and the entries; and the file content written is exactly the
concatenation of those strings. -/
theorem claim_C2_preservation (entries : List ProxyEntry) (origText : List Char) :
    ((splitLines (translateNewlines origText)).filter (fun l =>
        !(dirMatch false (strip l)).isSome &&
        !(matchCI annPrefixStripped (strip l)).isSome)).Sublist
      (savePieces entries (some origText)) ∧
    (savePieces entries (some origText)).flatten = saveContent entries (some origText) := by
  constructor
  · show (preservedOf (splitLines (translateNewlines origText))).Sublist _
    unfold savePieces
    dsimp only
    exact (List.sublist_append_left _ _).trans (List.sublist_append_left _ _)
  · rfl

theorem cumStates_mem_prefix : ∀ (ps : List (List Char)) (s : List Char),
    s ∈ cumStates ps → ∃ t, s ++ t = ps.flatten := by
  intro ps
  induction ps with
  | nil =>
    intro s hs
    unfold cumStates at hs
    have h2 : s = [] := List.mem_singleton.mp hs
    exact ⟨[], by simp [h2]⟩
  | cons p ps2 ih =>
    intro s hs
    unfold cumStates at hs
    rcases List.mem_cons.mp hs with h | h
    · exact ⟨p ++ ps2.flatten, by simp [h]⟩
    · obtain ⟨s2, hs2, hmap⟩ := List.mem_map.mp h
      obtain ⟨t, ht⟩ := ih s2 hs2
      exact ⟨t, by rw [← hmap]; simp [← ht]⟩

theorem getLast?_map_eq (f : List Char → List Char) :
    ∀ l : List (List Char), (l.map f).getLast? = l.getLast?.map f := by
  intro l
  induction l with
  | nil => rfl
  | cons a l2 ih =>
    cases l2 with
    | nil => rfl
    | cons b l3 =>
      simp only [List.map_cons, List.getLast?_cons_cons]
      simpa using ih

theorem cumStates_ne_nil (ps : List (List Char)) : cumStates ps ≠ [] := by
  cases ps <;> simp [cumStates]

theorem cumStates_getLast : ∀ ps : List (List Char),
    (cumStates ps).getLast? = some ps.flatten := by
  intro ps
  induction ps with
  | nil => rfl
  | cons p ps2 ih =>
    unfold cumStates
    obtain ⟨x, xs, hx⟩ : ∃ x xs, cumStates ps2 = x :: xs := by
      cases h : cumStates ps2 with
      | nil => exact absurd h (cumStates_ne_nil ps2)
      | cons x xs => exact ⟨x, xs, rfl⟩
    rw [hx]
    simp only [List.map_cons, List.getLast?_cons_cons]
    rw [show ((p ++ x) :: List.map (fun s => p ++ s) xs) = (x :: xs).map (fun s => p ++ s) from rfl]
    rw [getLast?_map_eq, ← hx, ih]
    simp

/-- C5 counterexample: the claim "every write path constructs the complete
new file content before any file mutation and only ever fully overwrites the
target" is false of the save loop: `save_proxies_to_conf` opens the target
with mode `w` (truncating it) and then writes the pieces one by one, so a
write failure can leave the file in a state that is neither the original
content nor the new content — here, the empty truncated state. -/
theorem claim_C5_counterexample :
    ([] : List Char) ∈ saveStates (loadProxies (.content "x\n".data true true true)).proxies
      (some "x\n".data) ∧
    ([] : List Char) ≠ "x\n".data ∧
    ([] : List Char) ≠ saveContent (loadProxies (.content "x\n".data true true true)).proxies
      (some "x\n".data) := by
  refine ⟨?_, ?_, ?_⟩ <;> decide

/-- C5 amended: the save truncates the target on open and then appends the
fully determined pieces in order, so every file state reachable during the
write is a prefix of the final serialized content, and the state after the
last write is exactly `saveContent` — but intermediate states (including the
empty just-truncated state) are possible if a write fails mid-way. -/
theorem claim_C5_amended (entries : List ProxyEntry) (origText : Option (List Char)) :
    (∀ s ∈ saveStates entries origText, ∃ t, s ++ t = saveContent entries origText) ∧
    (saveStates entries origText).getLast? = some (saveContent entries origText) := by
  constructor
  · intro s hs
    exact cumStates_mem_prefix _ s hs
  · exact cumStates_getLast _

/-- C5 witness: instantiating the amended theorem at a concrete mid-write
state. -/
theorem claim_C5_witness :
    ∃ t, ("x\n".data : List Char) ++ t =
      saveContent (loadProxies (.content "x\n".data true true true)).proxies (some "x\n".data) :=
  (claim_C5_amended (loadProxies (.content "x\n".data true true true)).proxies
    (some "x\n".data)).1 "x\n".data (by decide)

theorem isProxyTypeUnique_false {proxies : List ProxyEntry} {q : ProxyEntry} {ptype : Line}
    {currentId : Option Nat} (hq : q ∈ proxies) (hqe : q.enabled = true)
    (hqt : upS q.proxy_type = upS ptype)
    (hid : ∀ i, currentId = some i → q.id ≠ i) :
    isProxyTypeUnique proxies ptype currentId = false := by
  unfold isProxyTypeUnique
  by_contra hcon
  rw [Bool.not_eq_false, beq_iff_eq, List.length_eq_zero] at hcon
  have hmem2 := List.eq_nil_iff_forall_not_mem.mp hcon q
  apply hmem2
  refine List.mem_filter.mpr ⟨hq, ?_⟩
  rw [hqt, hqe]
  simp only [beq_self_eq_true, Bool.true_and, Bool.and_true]
  clear hcon hmem2
  cases currentId with
  | none => rfl
  | some i => simpa using hid i rfl

/-- C8: with an enabled entry of some kind already present, the edit-boundary
validation rejects adding or updating another entry of the same kind to
enabled, and the dialog-mediated add/update flows leave the entry list
unmutated — while the model operation `add_proxy` itself performs no such
check and appends unconditionally. -/
theorem claim_C8_enabled_uniqueness (proxies : List ProxyEntry) (nextId : Nat)
    (d : DialogInput) (eid : Nat) (q : ProxyEntry)
    (hq : q ∈ proxies) (hqe : q.enabled = true)
    (hqt : upS q.proxy_type = upS (strip d.ptype))
    (hqid : q.id ≠ eid)
    (hde : d.enabled = true) :
    validateDialog proxies none d = false ∧
    addViaDialog proxies nextId d = (proxies, nextId) ∧
    validateDialog proxies (some eid) d = false ∧
    updateViaDialog proxies eid d = proxies ∧
    (addProxy proxies nextId (strip d.name) (upS (strip d.ptype)) (strip d.url) true).1 =
      proxies ++ [mkProxyEntry (nextId + 1) (upS (strip d.ptype)) (strip d.url) true
        (strip d.name) []] := by
  have hqt2 : upS q.proxy_type = upS (upS (strip d.ptype)) := by
    rw [upS_idem]
    exact hqt
  have huniq : ∀ currentId : Option Nat,
      (∀ i, currentId = some i → q.id ≠ i) →
      isProxyTypeUnique proxies (upS (strip d.ptype)) currentId = false := by
    intro currentId hid
    exact isProxyTypeUnique_false hq hqe hqt2 hid
  have hval : ∀ currentId : Option Nat,
      (∀ i, currentId = some i → q.id ≠ i) →
      validateDialog proxies currentId d = false := by
    intro currentId hid
    unfold validateDialog
    dsimp only
    split
    · rfl
    split
    · rfl
    split
    · rfl
    split
    · rfl
    split
    · rfl
    · rename_i h5
      exfalso
      apply h5
      rw [hde, huniq currentId hid]
      rfl
  have hv1 : validateDialog proxies none d = false := hval none (fun i h => nomatch h)
  have hv2 : validateDialog proxies (some eid) d = false := by
    refine hval (some eid) (fun i h => ?_)
    rw [← Option.some.inj h]
    exact hqid
  refine ⟨hv1, ?_, hv2, ?_, rfl⟩
  · unfold addViaDialog
    rw [hv1]
    simp
  · unfold updateViaDialog
    rw [hv2]
    simp

/-- C8 witness. -/
theorem claim_C8_witness :
    validateDialog [mkProxyEntry 1 "HTTP".data "u".data true [] []] none
      ⟨[], "HTTP".data, "a".data, true⟩ = false ∧
    addViaDialog [mkProxyEntry 1 "HTTP".data "u".data true [] []] 5
      ⟨[], "HTTP".data, "a".data, true⟩ = ([mkProxyEntry 1 "HTTP".data "u".data true [] []], 5) :=
  ⟨(claim_C8_enabled_uniqueness [mkProxyEntry 1 "HTTP".data "u".data true [] []] 5
      ⟨[], "HTTP".data, "a".data, true⟩ 2 (mkProxyEntry 1 "HTTP".data "u".data true [] [])
      (by decide) (by decide) (by decide) (by decide) (by decide)).1,
   (claim_C8_enabled_uniqueness [mkProxyEntry 1 "HTTP".data "u".data true [] []] 5
      ⟨[], "HTTP".data, "a".data, true⟩ 2 (mkProxyEntry 1 "HTTP".data "u".data true [] [])
      (by decide) (by decide) (by decide) (by decide) (by decide)).2.1⟩

theorem coreDecomp_facts {s : Line} {com : Bool} {ktext target rest : Line}
    (h : CoreDecomp s com ktext target rest) :
    target ≠ [] ∧ '"' ∉ target ∧ KindText ktext ∧
    (∀ c ∈ target, c ∈ s) ∧ (∀ c ∈ ktext, c ∈ s) := by
  obtain ⟨cpre, kw1, kw2, wsp, hs, _, _, hkind, _, _, _, htne, htq⟩ := h
  refine ⟨htne, htq, hkind, ?_, ?_⟩
  · intro c hc
    rw [hs]
    simp [hc]
  · intro c hc
    rw [hs]
    simp [hc]

theorem dirMatch_facts {strict : Bool} {s : Line} {com : Bool} {ktext url : Line}
    (h : dirMatch strict s = some (com, ktext, url)) :
    url ≠ [] ∧ '"' ∉ url ∧ KindText ktext ∧
    (∀ c ∈ url, c ∈ s) ∧ (∀ c ∈ ktext, c ∈ s) := by
  cases strict
  · obtain ⟨wsmid, r2, hd, _⟩ := dirMatch_lenient_sound h
    exact coreDecomp_facts hd
  · exact coreDecomp_facts (dirMatch_strict_sound h)

theorem kindText_upS {k : Line} (h : KindText k) :
    upS k ∈ standardTypes := by
  rcases h with h | h | h | h
  · have h2 : upS k = upS "http".data := upS_congr (by rw [h]; decide)
    rw [h2]
    decide
  · have h2 : upS k = upS "https".data := upS_congr (by rw [h]; decide)
    rw [h2]
    decide
  · have h2 : upS k = upS "ftp".data := upS_congr (by rw [h]; decide)
    rw [h2]
    decide
  · have h2 : upS k = upS "socks".data := upS_congr (by rw [h]; decide)
    rw [h2]
    decide

theorem parseStep_proxies_cases (strict : Bool) (st : ParseState) (n : Nat) (l : Line) :
    (parseStep strict st n l).proxies = st.proxies ∨
    ∃ com ktext url nm cols,
      dirMatch strict (strip l) = some (com, ktext, url) ∧
      (parseStep strict st n l).proxies =
        st.proxies ++ [mkProxyEntry (st.nextId + 1) (upS ktext) url (!com) nm cols] := by
  unfold parseStep
  dsimp only
  cases hann : annMatch (strip l) with
  | some g =>
    left
    simp only [hann]
  | none =>
    cases hdir : dirMatch strict (strip l) with
    | some v =>
      obtain ⟨com, ktext, url⟩ := v
      right
      refine ⟨com, ktext, url,
        (match st.lastSeenName with | some nm => nm | none => []),
        st.collected ++ [l], rfl, ?_⟩
      simp only [hann, hdir]
    | none =>
      cases hs : strip l with
      | nil =>
        rw [hs] at hann hdir
        left
        simp only [hann, hdir]
      | cons c r =>
        rw [hs] at hann hdir
        by_cases hc : c = '#'
        · left
          simp only [hann, hdir, if_pos hc]
        · left
          simp only [hann, hdir, if_neg hc]
          split
          · rfl
          · rfl

theorem runParseAux_proxies_mem (strict : Bool) :
    ∀ (lines : List Line) (st : ParseState) (n : Nat) (p : ProxyEntry),
    p ∈ (runParseAux strict st n lines).proxies →
    p ∈ st.proxies ∨ ∃ l ∈ lines, ∃ com ktext url nm cols i,
      dirMatch strict (strip l) = some (com, ktext, url) ∧
      p = mkProxyEntry i (upS ktext) url (!com) nm cols := by
  intro lines
  induction lines with
  | nil =>
    intro st n p hp
    exact Or.inl hp
  | cons l ls ih =>
    intro st n p hp
    unfold runParseAux at hp
    rcases ih _ _ p hp with h | ⟨l2, hl2, rest⟩
    · rcases parseStep_proxies_cases strict st n l with hc | ⟨com, ktext, url, nm, cols, hdir, hc⟩
      · rw [hc] at h
        exact Or.inl h
      · rw [hc] at h
        rcases List.mem_append.mp h with h | h
        · exact Or.inl h
        · have h2 := List.mem_singleton.mp h
          exact Or.inr ⟨l, by simp, com, ktext, url, nm, cols, st.nextId + 1, hdir, h2⟩
    · exact Or.inr ⟨l2, by simp [hl2], rest⟩

theorem addPlaceholdersAux_mem (existing : List Line) :
    ∀ (ts : List Line) (ps : List ProxyEntry) (nid : Nat) (p : ProxyEntry),
    p ∈ (addPlaceholdersAux existing (ps, nid) ts).1 →
    p ∈ ps ∨ ∃ t ∈ ts, ∃ i, p = mkProxyEntry i t [] false [] [] := by
  intro ts
  induction ts with
  | nil =>
    intro ps nid p hp
    exact Or.inl hp
  | cons t ts2 ih =>
    intro ps nid p hp
    unfold addPlaceholdersAux at hp
    split at hp
    · rcases ih ps nid p hp with h | ⟨t2, ht2, h⟩
      · exact Or.inl h
      · exact Or.inr ⟨t2, by simp [ht2], h⟩
    · split at hp
      · rcases ih ps nid p hp with h | ⟨t2, ht2, h⟩
        · exact Or.inl h
        · exact Or.inr ⟨t2, by simp [ht2], h⟩
      · rcases ih _ _ p hp with h | ⟨t2, ht2, h⟩
        · rcases List.mem_append.mp h with h2 | h2
          · exact Or.inl h2
          · have h3 := List.mem_singleton.mp h2
            exact Or.inr ⟨t, by simp, nid + 1, h3⟩
        · exact Or.inr ⟨t2, by simp [ht2], h⟩

theorem addPlaceholders_mem {ps : List ProxyEntry} {nid : Nat} {p : ProxyEntry}
    (hp : p ∈ (addPlaceholders ps nid).1) :
    p ∈ ps ∨ ∃ t ∈ standardTypes, ∃ i, p = mkProxyEntry i t [] false [] [] := by
  unfold addPlaceholders at hp
  exact addPlaceholdersAux_mem _ standardTypes ps nid p hp

/-- C9: every entry materialized by the parser from a directive line has a
non-empty target (the `[^"]+` group requires at least one character), so
after any load the only entries with an empty target are the synthesized
placeholders: disabled, unnamed, without source lines, and of one of the four
standard kinds. -/
theorem claim_C9_empty_target_is_placeholder (input : LoadInput) (p : ProxyEntry)
    (hp : p ∈ (loadProxies input).proxies) (hurl : p.url = []) :
    p.enabled = false ∧ p.name = [] ∧ p.original_lines = [] ∧ p.proxy_type ∈ standardTypes := by
  have hph : ∀ t, t ∈ standardTypes → ∀ i, p = mkProxyEntry i t [] false [] [] →
      p.enabled = false ∧ p.name = [] ∧ p.original_lines = [] ∧ p.proxy_type ∈ standardTypes := by
    intro t ht i hpt
    subst hpt
    refine ⟨rfl, rfl, rfl, ?_⟩
    show upS t ∈ standardTypes
    have ht2 : ∀ u ∈ standardTypes, upS u = u := by decide
    rw [ht2 t ht]
    exact ht
  match input with
  | .unreadable => simp [loadProxies] at hp
  | .missing =>
    have hp2 : p ∈ (addPlaceholders [] 0).1 := hp
    rcases addPlaceholders_mem hp2 with h | ⟨t, ht, i, h⟩
    · simp at h
    · exact hph t ht i h
  | .content text canWrite backupOk writeOk =>
    have hp2 : p ∈ (addPlaceholders
        (runParseAux (canWrite && (correctLines (splitLines (translateNewlines text))).2 && backupOk && writeOk)
          ⟨[], 0, _, none, []⟩ 0 _).proxies
        (runParseAux (canWrite && (correctLines (splitLines (translateNewlines text))).2 && backupOk && writeOk)
          ⟨[], 0, _, none, []⟩ 0 _).nextId).1 := hp
    rcases addPlaceholders_mem hp2 with h | ⟨t, ht, i, h⟩
    · rcases runParseAux_proxies_mem _ _ _ _ p h with h2 | ⟨l, _, com, ktext, url, nm, cols, i, hdir, hpe⟩
      · simp at h2
      · exfalso
        obtain ⟨hne, _, _, _, _⟩ := dirMatch_facts hdir
        apply hne
        rw [hpe] at hurl
        exact hurl
    · exact hph t ht i h

/-- C9 witness: the HTTP placeholder created for a missing file. -/
theorem claim_C9_witness :
    (mkProxyEntry 1 "HTTP".data [] false [] []).enabled = false ∧
    (mkProxyEntry 1 "HTTP".data [] false [] []).name = [] ∧
    (mkProxyEntry 1 "HTTP".data [] false [] []).original_lines = [] ∧
    (mkProxyEntry 1 "HTTP".data [] false [] []).proxy_type ∈ standardTypes :=
  claim_C9_empty_target_is_placeholder .missing (mkProxyEntry 1 "HTTP".data [] false [] [])
    (by decide) (by decide)

/-! ### Infrastructure for the round-trip theorem -/

theorem mem_lstrip {c : Char} {l : Line} (h : c ∈ lstrip l) : c ∈ l :=
  (List.dropWhile_sublist _).mem h

theorem mem_rstrip {c : Char} {l : Line} (h : c ∈ rstrip l) : c ∈ l := by
  unfold rstrip at h
  rw [List.mem_reverse] at h
  have h2 := (List.dropWhile_sublist (l := l.reverse) _).mem h
  rwa [List.mem_reverse] at h2

theorem mem_strip {c : Char} {l : Line} (h : c ∈ strip l) : c ∈ l :=
  mem_rstrip (mem_lstrip h)

theorem mem_dropWs {c : Char} {l : Line} (h : c ∈ dropWs l) : c ∈ l :=
  (List.dropWhile_sublist _).mem h

theorem mem_takeWhile_mem {p : Char → Bool} {c : Char} {l : Line}
    (h : c ∈ l.takeWhile p) : c ∈ l :=
  (List.takeWhile_sublist _).mem h

theorem lstrip_of_strip_fix {x : Line} (h : strip x = x) : lstrip x = x := by
  cases x with
  | nil => rfl
  | cons c r =>
    rcases lstrip_cases (rstrip (c :: r)) with h2 | ⟨e, s, h2, he⟩
    · rw [show lstrip (rstrip (c :: r)) = strip (c :: r) from rfl, h] at h2
      exact absurd h2 (by simp)
    · rw [show lstrip (rstrip (c :: r)) = strip (c :: r) from rfl, h] at h2
      cases h2
      exact lstrip_cons_neg he

theorem takeWhile_all_eq {p : Char → Bool} {l : Line} (h : ∀ c ∈ l, p c = true) :
    l.takeWhile p = l := by
  induction l with
  | nil => rfl
  | cons x xs ih =>
    rw [List.takeWhile_cons, if_pos (h x (by simp))]
    rw [ih (fun c hc => h c (by simp [hc]))]

theorem strip_fix_last {x : Line} (h : strip x = x) (hne : x ≠ []) :
    ∃ y d, x = y ++ [d] ∧ isWsChar d = false := by
  rcases rstrip_cases x with h1 | ⟨x2, d, h1, hd⟩
  · exfalso
    have h2 : strip x = [] := by unfold strip; rw [h1]; rfl
    exact hne (by rw [← h, h2])
  · -- x = strip x is a suffix of rstrip x = x2 ++ [d]
    have h2 : rstrip x = (rstrip x).takeWhile isWsChar ++ strip x := by
      unfold strip lstrip
      rw [List.takeWhile_append_dropWhile]
    rw [h, h1] at h2
    rcases List.eq_nil_or_concat x with h3 | ⟨y, e, h3⟩
    · exact absurd h3 hne
    · rw [List.concat_eq_append] at h3
      refine ⟨y, e, h3, ?_⟩
      have h4 : x2 ++ [d] = ((x2 ++ [d]).takeWhile isWsChar ++ y) ++ [e] := by
        rw [List.append_assoc, ← h3, ← h2]
      have h5 : d = e := by
        have := congrArg List.getLast? h4
        rw [List.getLast?_concat, List.getLast?_concat] at this
        exact Option.some.inj this
      rw [← h5]
      exact hd

theorem mem_rstripCRLF {c : Char} {l : Line} (h : c ∈ rstripCRLF l) : c ∈ l := by
  unfold rstripCRLF at h
  rw [List.mem_reverse] at h
  have h2 := (List.dropWhile_sublist (l := l.reverse) _).mem h
  rwa [List.mem_reverse] at h2

theorem rstripCRLF_of_clean {b : Line} (h : ∀ c ∈ b, c ≠ '\n' ∧ c ≠ '\r') :
    rstripCRLF (b ++ ['\n']) = b := by
  unfold rstripCRLF
  rw [List.reverse_append]
  rw [show (['\n'] : Line).reverse ++ b.reverse = '\n' :: b.reverse from by simp]
  rw [List.dropWhile_cons, if_pos (by decide)]
  cases hb : b.reverse with
  | nil => simpa using congrArg List.reverse hb
  | cons x xs =>
    have hx : x ∈ b := by rw [← List.mem_reverse, hb]; simp
    rw [dropWhile_cons_neg (by
      obtain ⟨h1, h2⟩ := h x hx
      simp [h1, h2])]
    rw [← hb]
    simp

theorem rstripCRLF_decomp (l : Line) :
    ∃ w, l = rstripCRLF l ++ w ∧ w.all isWsChar = true := by
  refine ⟨(l.reverse.takeWhile (fun c => c == '\n' || c == '\r')).reverse, ?_, ?_⟩
  · unfold rstripCRLF
    rw [← List.reverse_append, List.takeWhile_append_dropWhile, List.reverse_reverse]
  · rw [List.all_eq_true]
    intro c hc
    rw [List.mem_reverse] at hc
    have h2 := List.mem_takeWhile_imp hc
    simp only [Bool.or_eq_true, beq_iff_eq] at h2
    rcases h2 with h2 | h2 <;> subst h2 <;> decide

theorem strip_rstripCRLF (l : Line) : strip l = strip (rstripCRLF l) := by
  obtain ⟨w, hl, hw⟩ := rstripCRLF_decomp l
  conv_lhs => rw [hl]
  exact strip_append_ws hw

/-- The serialization-relevant fields of an entry (everything except the id
and the diagnostics-only raw lines). -/
def entrySig (p : ProxyEntry) : Line × Line × Bool × Line :=
  (p.proxy_type, p.url, p.enabled, p.name)

theorem emits_sig {p q : ProxyEntry} (h : entrySig p = entrySig q) :
    emits p = emits q := by
  unfold entrySig at h
  simp only [Prod.mk.injEq] at h
  obtain ⟨h1, h2, h3, h4⟩ := h
  unfold emits
  rw [h1, h2, h3, h4]

theorem toConfStrings_sig {p q : ProxyEntry} (h : entrySig p = entrySig q) :
    toConfStrings p = toConfStrings q := by
  unfold entrySig at h
  simp only [Prod.mk.injEq] at h
  obtain ⟨h1, h2, h3, h4⟩ := h
  unfold toConfStrings
  rw [h1, h2, h3, h4]

theorem entryLinePieces_sig {p q : ProxyEntry} (h : entrySig p = entrySig q) :
    entryLinePieces p = entryLinePieces q := by
  unfold entryLinePieces
  rw [toConfStrings_sig h]

theorem map_entryLinePieces_sig : ∀ {xs ys : List ProxyEntry},
    xs.map entrySig = ys.map entrySig →
    xs.map entryLinePieces = ys.map entryLinePieces := by
  intro xs
  induction xs with
  | nil =>
    intro ys h
    cases ys with
    | nil => rfl
    | cons y ys2 => simp at h
  | cons x xs2 ih =>
    intro ys h
    cases ys with
    | nil => simp at h
    | cons y ys2 =>
      simp only [List.map_cons, List.cons.injEq] at h ⊢
      exact ⟨entryLinePieces_sig h.1, ih h.2⟩

/-- No blank separator will be emitted between consecutive entries: whenever
two adjacent entries are both emitted, the first is unnamed. -/
def noBlanksB : List ProxyEntry → Bool
  | [] => true
  | [_] => true
  | p :: q :: r =>
    (!(emits p && emits q) || p.name.isEmpty) && noBlanksB (q :: r)

theorem noBlanksB_of_cons {p : ProxyEntry} {r : List ProxyEntry}
    (h : noBlanksB (p :: r) = true) : noBlanksB r = true := by
  cases r with
  | nil => rfl
  | cons q r2 =>
    unfold noBlanksB at h
    rw [Bool.and_eq_true] at h
    exact h.2

theorem noBlanksB_sig : ∀ {xs ys : List ProxyEntry},
    xs.map entrySig = ys.map entrySig → noBlanksB xs = true → noBlanksB ys = true := by
  intro xs
  induction xs with
  | nil =>
    intro ys h _
    cases ys with
    | nil => rfl
    | cons y ys2 => simp at h
  | cons x xs2 ih =>
    intro ys h hb
    cases ys with
    | nil => simp at h
    | cons y ys2 =>
      simp only [List.map_cons, List.cons.injEq] at h
      cases xs2 with
      | nil =>
        cases ys2 with
        | nil => rfl
        | cons z zs => simp at h
      | cons x2 xs3 =>
        cases ys2 with
        | nil => simp at h
        | cons y2 ys3 =>
          simp only [List.map_cons, List.cons.injEq] at h
          unfold noBlanksB at hb ⊢
          rw [Bool.and_eq_true] at hb
          rw [Bool.and_eq_true]
          constructor
          · rw [← emits_sig h.1, ← emits_sig (h.2.1 : entrySig x2 = entrySig y2)]
            have hn : y.name = x.name := by
              have := h.1
              unfold entrySig at this
              simp only [Prod.mk.injEq] at this
              exact this.2.2.2.symm
            rw [hn]
            exact hb.1
          · exact ih (by simp only [List.map_cons, h.2.1, h.2.2]) hb.2

/-- A wellformed pending label: stripped, and free of line breaks. -/
def GoodName (nm : Line) : Prop :=
  strip nm = nm ∧ '\n' ∉ nm ∧ '\r' ∉ nm

/-- A wellformed parsed entry: non-empty quote-free single-line target, a
wellformed name, and a standard upper-case kind. -/
def GoodEntry (p : ProxyEntry) : Prop :=
  p.url ≠ [] ∧ '"' ∉ p.url ∧ '\n' ∉ p.url ∧ '\r' ∉ p.url ∧
  GoodName p.name ∧ p.proxy_type ∈ standardTypes

theorem upS_std {t : Line} (h : t ∈ standardTypes) : upS t = t := by
  simp only [standardTypes, List.mem_cons, List.mem_singleton, List.not_mem_nil, or_false] at h
  rcases h with h | h | h | h <;> subst h <;> decide

theorem std_kind {t : Line} (h : t ∈ standardTypes) : KindText t := by
  simp only [standardTypes, List.mem_cons, List.mem_singleton, List.not_mem_nil, or_false] at h
  unfold KindText
  rcases h with h | h | h | h <;> subst h <;> decide

theorem std_clean {t : Line} (h : t ∈ standardTypes) :
    ∀ c ∈ t, c ≠ '\n' ∧ c ≠ '\r' := by
  simp only [standardTypes, List.mem_cons, List.mem_singleton, List.not_mem_nil, or_false] at h
  rcases h with h | h | h | h <;> subst h <;> decide

theorem filter_all_true {α : Type} {p : α → Bool} {l : List α}
    (h : ∀ x ∈ l, p x = true) : l.filter p = l := by
  induction l with
  | nil => rfl
  | cons x xs ih =>
    rw [List.filter_cons, if_pos (h x (by simp))]
    rw [ih (fun y hy => h y (by simp [hy]))]

theorem filter_all_false {α : Type} {p : α → Bool} {l : List α}
    (h : ∀ x ∈ l, p x = false) : l.filter p = [] := by
  induction l with
  | nil => rfl
  | cons x xs ih =>
    rw [List.filter_cons, if_neg (by rw [h x (by simp)]; simp)]
    exact ih (fun y hy => h y (by simp [hy]))

theorem flatten_if_filter (f : ProxyEntry → List (List Char)) :
    ∀ (l : List ProxyEntry),
    (l.map (fun p => if emits p then f p else [])).flatten =
      ((l.filter emits).map f).flatten := by
  intro l
  induction l with
  | nil => rfl
  | cons x xs ih =>
    rw [List.map_cons, List.flatten_cons, ih, List.filter_cons]
    by_cases h : emits x
    · rw [if_pos h, if_pos (by simp [h]), List.map_cons, List.flatten_cons]
    · rw [if_neg h, if_neg (by simp [h])]
      simp

theorem runParseAux_nil (strict : Bool) (st : ParseState) (n : Nat) :
    runParseAux strict st n [] = st := rfl

theorem runParseAux_cons (strict : Bool) (st : ParseState) (n : Nat) (l : Line)
    (ls : List Line) :
    runParseAux strict st n (l :: ls) = runParseAux strict (parseStep strict st n l) (n + 1) ls :=
  rfl

theorem runParseAux_append (strict : Bool) : ∀ (xs ys : List Line) (st : ParseState) (n : Nat),
    runParseAux strict st n (xs ++ ys) =
      runParseAux strict (runParseAux strict st n xs) (n + xs.length) ys := by
  intro xs
  induction xs with
  | nil =>
    intro ys st n
    rw [List.nil_append, runParseAux_nil]
    simp
  | cons x xs2 ih =>
    intro ys st n
    rw [List.cons_append, runParseAux_cons, runParseAux_cons, ih]
    simp only [List.length_cons]
    rw [show n + (xs2.length + 1) = n + 1 + xs2.length from by omega]

theorem addPlaceholdersAux_append (existing : List Line) :
    ∀ (ts : List Line) (ps : List ProxyEntry) (nid : Nat),
    ∃ phs, (addPlaceholdersAux existing (ps, nid) ts).1 = ps ++ phs ∧
      ∀ q ∈ phs, q.url = [] ∧ q.name = [] ∧ q.enabled = false := by
  intro ts
  induction ts with
  | nil =>
    intro ps nid
    exact ⟨[], by simp [addPlaceholdersAux], by simp⟩
  | cons t ts2 ih =>
    intro ps nid
    unfold addPlaceholdersAux
    by_cases h1 : existing.contains t
    · rw [if_pos h1]
      exact ih ps nid
    · rw [if_neg h1]
      by_cases h2 : ps.any (fun p => upS p.proxy_type == t && p.url.isEmpty && p.name.isEmpty)
      · rw [if_pos h2]
        exact ih ps nid
      · rw [if_neg h2]
        obtain ⟨phs, hp, hq⟩ := ih (ps ++ [mkProxyEntry (nid + 1) t [] false [] []]) (nid + 1)
        refine ⟨mkProxyEntry (nid + 1) t [] false [] [] :: phs, ?_, ?_⟩
        · rw [hp]
          simp
        · intro q hqm
          rcases List.mem_cons.mp hqm with h3 | h3
          · subst h3
            exact ⟨rfl, rfl, rfl⟩
          · exact hq q h3

theorem addPlaceholders_split (ps : List ProxyEntry) (nid : Nat) :
    ∃ phs, (addPlaceholders ps nid).1 = ps ++ phs ∧
      ∀ q ∈ phs, q.url = [] ∧ q.name = [] ∧ q.enabled = false := by
  unfold addPlaceholders
  exact addPlaceholdersAux_append _ standardTypes ps nid

theorem emits_false_shape {q : ProxyEntry} (h1 : q.url = []) (h2 : q.name = [])
    (h3 : q.enabled = false) : emits q = false := by
  unfold emits
  rw [h1, h2, h3]
  rfl

theorem emits_true_of_url {p : ProxyEntry} (h : p.url ≠ []) : emits p = true := by
  unfold emits
  have h2 : p.url.isEmpty = false := by
    cases hu : p.url with
    | nil => exact absurd hu h
    | cons c r => rfl
  rw [h2]
  rfl

theorem addPlaceholders_ne_nil (ps : List ProxyEntry) (nid : Nat) :
    (addPlaceholders ps nid).1 ≠ [] := by
  obtain ⟨phs, hp, _⟩ := addPlaceholders_split ps nid
  cases ps with
  | cons p r =>
    rw [hp]
    simp
  | nil =>
    intro hcon
    unfold addPlaceholders addPlaceholdersAux at hcon
    simp only [standardTypes, List.filter_nil, List.map_nil] at hcon
    rw [if_neg (by decide), if_neg (by simp)] at hcon
    obtain ⟨phs2, hp2, _⟩ := addPlaceholdersAux_append ([] : List Line)
      ["HTTPS".data, "FTP".data, "SOCKS".data]
      ([] ++ [mkProxyEntry (nid + 1) "HTTP".data [] false [] []]) (nid + 1)
    rw [hp2] at hcon
    simp at hcon

theorem goodName_nil : GoodName [] := ⟨rfl, by simp, by simp⟩

theorem parseStep_good (strict : Bool) (st : ParseState) (n : Nat) (l : Line)
    (hln : '\n' ∉ strip l) (hlr : '\r' ∉ strip l)
    (hp : ∀ p ∈ st.proxies, GoodEntry p)
    (hn : ∀ nm, st.lastSeenName = some nm → GoodName nm) :
    (∀ p ∈ (parseStep strict st n l).proxies, GoodEntry p) ∧
    (∀ nm, (parseStep strict st n l).lastSeenName = some nm → GoodName nm) := by
  unfold parseStep
  dsimp only
  cases hann : annMatch (strip l) with
  | some g =>
    simp only [hann]
    refine ⟨hp, ?_⟩
    intro nm hnm
    simp only [Option.some.injEq] at hnm
    subst hnm
    -- g is carved out of the stripped line by the annotation regex
    unfold annMatch at hann
    cases hci : matchCI annPrefixStripped (strip l) with
    | none => rw [hci] at hann; exact absurd hann (by simp)
    | some r =>
      rw [hci] at hann
      simp only [Option.some.injEq] at hann
      obtain ⟨pre, hpre, _⟩ := matchCI_sound _ _ _ hci
      refine ⟨strip_idem g, ?_, ?_⟩
      · intro hc
        have h1 : '\n' ∈ (dropWs r).takeWhile (fun c => c != '\n') := by
          rw [hann]
          exact mem_strip hc
        have h2 := List.mem_takeWhile_imp h1
        simp at h2
      · intro hc
        have h2 : '\r' ∈ g := mem_strip hc
        rw [← hann] at h2
        have h3 : '\r' ∈ r := mem_dropWs (mem_takeWhile_mem h2)
        exact hlr (by rw [hpre]; simp [h3])
  | none =>
    cases hdir : dirMatch strict (strip l) with
    | some v =>
      obtain ⟨com, ktext, url⟩ := v
      simp only [hann, hdir]
      constructor
      · intro p hpm
        rcases List.mem_append.mp hpm with h | h
        · exact hp p h
        · rw [List.mem_singleton.mp h]
          obtain ⟨hu1, hu2, hkind, humem, _⟩ := dirMatch_facts hdir
          refine ⟨hu1, hu2, fun hc => hln (humem _ hc), fun hc => hlr (humem _ hc), ?_, ?_⟩
          · cases hls : st.lastSeenName with
            | none => simp only [mkProxyEntry, hls]; exact goodName_nil
            | some nm0 => simp only [mkProxyEntry, hls]; exact hn nm0 hls
          · simp only [mkProxyEntry]
            rw [upS_idem]
            exact kindText_upS hkind
      · intro nm hnm
        simp at hnm
    | none =>
      cases hs : strip l with
      | nil =>
        rw [hs] at hann hdir
        simp only [hann, hdir]
        exact ⟨hp, by intro nm hnm; simp at hnm⟩
      | cons c r =>
        rw [hs] at hann hdir
        by_cases hc : c = '#'
        · simp only [hann, hdir, if_pos hc]
          exact ⟨hp, hn⟩
        · simp only [hann, hdir, if_neg hc]
          split
          · exact ⟨hp, by intro nm hnm; simp at hnm⟩
          · exact ⟨hp, by intro nm hnm; simp at hnm⟩

theorem runParseAux_good (strict : Bool) : ∀ (lines : List Line) (st : ParseState) (n : Nat),
    (∀ l ∈ lines, '\n' ∉ strip l ∧ '\r' ∉ strip l) →
    (∀ p ∈ st.proxies, GoodEntry p) →
    (∀ nm, st.lastSeenName = some nm → GoodName nm) →
    ∀ p ∈ (runParseAux strict st n lines).proxies, GoodEntry p := by
  intro lines
  induction lines with
  | nil =>
    intro st n _ hp _ p hpm
    exact hp p hpm
  | cons l ls ih =>
    intro st n hcl hp hn p hpm
    rw [runParseAux_cons] at hpm
    obtain ⟨hl1, hl2⟩ := hcl l (by simp)
    obtain ⟨hp2, hn2⟩ := parseStep_good strict st n l hl1 hl2 hp hn
    exact ih _ _ (fun x hx => hcl x (by simp [hx])) hp2 hn2 p hpm

/-- `corrections_made_and_saved` as a function of the load inputs. -/
def strictOf (text : List Char) (cw bk wr : Bool) : Bool :=
  cw && (correctLines (splitLines (translateNewlines text))).2 && bk && wr

/-- The line list the parsing walk runs over. -/
def ltpOf (text : List Char) (cw bk wr : Bool) : List Line :=
  if strictOf text cw bk wr then (correctLines (splitLines (translateNewlines text))).1
  else splitLines (translateNewlines text)

/-- The diagnostics accumulated before the parsing walk. -/
def diags0Of (text : List Char) (cw bk wr : Bool) : List Diag :=
  if cw && (correctLines (splitLines (translateNewlines text))).2 then
    if bk then (if wr then [] else [Diag.ioWriteCorrection])
    else [Diag.backupFailedCorrection]
  else []

theorem loadOut_eq (text : List Char) (cw bk wr : Bool) :
    loadOut text cw bk wr =
      (addPlaceholders (runParseAux (strictOf text cw bk wr)
          ⟨[], 0, diags0Of text cw bk wr, none, []⟩ 0 (ltpOf text cw bk wr)).proxies
        (runParseAux (strictOf text cw bk wr)
          ⟨[], 0, diags0Of text cw bk wr, none, []⟩ 0 (ltpOf text cw bk wr)).nextId).1 := rfl

theorem fileAfterLoad_content (text : List Char) (cw bk wr : Bool) :
    fileAfterLoad (.content text cw bk wr) =
      if strictOf text cw bk wr
      then some (correctLines (splitLines (translateNewlines text))).1.flatten
      else some text := by
  unfold fileAfterLoad strictOf
  rfl

theorem origLines_NL {text : List Char}
    (H1 : translateNewlines text = [] ∨ ∃ b, translateNewlines text = b ++ ['\n']) :
    ∀ l ∈ splitLines (translateNewlines text), NLLine l ∧ ∀ c ∈ l, c ≠ '\r' := by
  intro l hl
  refine ⟨splitLines_NL (by rcases H1 with h | ⟨b, hb⟩; exact Or.inl h; exact Or.inr ⟨b, hb⟩) l hl, ?_⟩
  intro c hc hr
  subst hr
  exact crFree_translate text (mem_of_mem_splitLines hl hc)

theorem correctLine_NL {l : Line} (h : NLLine l) (hr : ∀ c ∈ l, c ≠ '\r') :
    NLLine (correctLine l).1 ∧ ∀ c ∈ (correctLine l).1, c ≠ '\r' := by
  obtain ⟨b, hb, hbn⟩ := h
  have hclean : ∀ c ∈ b, c ≠ '\n' ∧ c ≠ '\r' := by
    intro c hc
    exact ⟨fun he => hbn (he ▸ hc), hr c (by rw [hb]; simp [hc])⟩
  have hcrlf : rstripCRLF l = b := by
    rw [hb]
    exact rstripCRLF_of_clean hclean
  unfold correctLine
  cases hcm : correctionMatch (rstripCRLF l) with
  | none =>
    simp only [hcm]
    exact ⟨⟨b, hb, hbn⟩, hr⟩
  | some core =>
    simp only [hcm]
    split
    · exact ⟨⟨b, hb, hbn⟩, hr⟩
    · obtain ⟨_, rest, hsr⟩ := correctionMatch_decomp hcm
      have hcore : ∀ c ∈ core, c ≠ '\n' ∧ c ≠ '\r' := by
        intro c hc
        exact hclean c (by rw [← hcrlf, hsr]; simp [hc])
      constructor
      · refine ⟨core ++ [';'], by simp, ?_⟩
        intro hcon
        rcases List.mem_append.mp hcon with h2 | h2
        · exact (hcore _ h2).1 rfl
        · simp at h2
      · intro c hc hr2
        subst hr2
        rcases List.mem_append.mp hc with h2 | h2
        · rcases List.mem_append.mp h2 with h3 | h3
          · exact (hcore _ h3).2 rfl
          · simp at h3
        · simp at h2

theorem ltp_NL {text : List Char} (cw bk wr : Bool)
    (H1 : translateNewlines text = [] ∨ ∃ b, translateNewlines text = b ++ ['\n']) :
    ∀ l ∈ ltpOf text cw bk wr, NLLine l ∧ ∀ c ∈ l, c ≠ '\r' := by
  unfold ltpOf
  split
  · intro l hl
    unfold correctLines at hl
    simp only at hl
    obtain ⟨l0, hl0, hmap⟩ := List.mem_map.mp hl
    obtain ⟨h1, h2⟩ := origLines_NL H1 l0 hl0
    rw [← hmap]
    exact correctLine_NL h1 h2
  · exact origLines_NL H1

theorem clean_of_NL {l : Line} (h : NLLine l) (hr : ∀ c ∈ l, c ≠ '\r') :
    '\n' ∉ strip l ∧ '\r' ∉ strip l := by
  obtain ⟨b, hb, hbn⟩ := h
  rw [hb, strip_newline]
  exact ⟨fun hc => hbn (mem_strip hc),
    fun hc => hr '\r' (by rw [hb]; simp [mem_strip hc]) rfl⟩

theorem loadOut_split (text : List Char) (cw bk wr : Bool)
    (H1 : translateNewlines text = [] ∨ ∃ b, translateNewlines text = b ++ ['\n']) :
    ∃ P phs, loadOut text cw bk wr = P ++ phs ∧
      (∀ p ∈ P, GoodEntry p) ∧ (∀ p ∈ P, emits p = true) ∧
      (∀ q ∈ phs, emits q = false) := by
  rw [loadOut_eq]
  obtain ⟨phs, hsplit, hph⟩ := addPlaceholders_split
    (runParseAux (strictOf text cw bk wr)
      ⟨[], 0, diags0Of text cw bk wr, none, []⟩ 0 (ltpOf text cw bk wr)).proxies
    (runParseAux (strictOf text cw bk wr)
      ⟨[], 0, diags0Of text cw bk wr, none, []⟩ 0 (ltpOf text cw bk wr)).nextId
  have hgood : ∀ p ∈ (runParseAux (strictOf text cw bk wr)
      ⟨[], 0, diags0Of text cw bk wr, none, []⟩ 0 (ltpOf text cw bk wr)).proxies,
      GoodEntry p := by
    apply runParseAux_good
    · intro l hl
      obtain ⟨h1, h2⟩ := ltp_NL cw bk wr H1 l hl
      exact clean_of_NL h1 h2
    · intro p hp
      simp at hp
    · intro nm hnm
      simp at hnm
  refine ⟨_, phs, hsplit, hgood, ?_, ?_⟩
  · intro p hp
    exact emits_true_of_url (hgood p hp).1
  · intro q hq
    obtain ⟨h1, h2, h3⟩ := hph q hq
    exact emits_false_shape h1 h2 h3

theorem lstrip_of_coreDecomp {s : Line} {com : Bool} {kt tg rest : Line}
    (h : CoreDecomp s com kt tg rest) : lstrip s = s := by
  obtain ⟨cpre, kw1, kw2, wsp, hs, hcp, hk1, _, _, _, _, _, _⟩ := h
  cases com with
  | true =>
    obtain ⟨w, hw, _⟩ := hcp
    rw [hs, hw]
    rw [show ((('#' :: w) ++ kw1 ++ kt ++ kw2 ++ wsp ++ ['"'] ++ tg ++ ['"'] ++ rest : Line)) =
      '#' :: (w ++ kw1 ++ kt ++ kw2 ++ wsp ++ ['"'] ++ tg ++ ['"'] ++ rest) from by simp]
    exact lstrip_cons_neg (by decide)
  | false =>
    have hcp2 : cpre = [] := hcp
    subst hcp2
    cases hkw : kw1 with
    | nil =>
      rw [hkw] at hk1
      simp [lowS] at hk1
    | cons k kr =>
      rw [hkw] at hk1
      rw [show ("acquire::".data : Line) = 'a' :: "cquire::".data from by decide] at hk1
      simp only [lowS, List.map_cons, List.cons.injEq] at hk1
      have hkws : isWsChar k = false := by
        by_contra hcon
        rw [Bool.not_eq_false] at hcon
        have h2 := isWs_toLower hcon
        rw [hk1.1] at h2
        rw [← h2] at hcon
        exact absurd hcon (by decide)
      rw [hs, hkw]
      rw [show ((([] : Line) ++ (k :: kr) ++ kt ++ kw2 ++ wsp ++ ['"'] ++ tg ++ ['"'] ++ rest)) =
        k :: (kr ++ kt ++ kw2 ++ wsp ++ ['"'] ++ tg ++ ['"'] ++ rest) from by simp]
      exact lstrip_cons_neg hkws

theorem strip_of_coreDecomp_wsSemi {s : Line} {com : Bool} {kt tg w2 tail : Line}
    (h : CoreDecomp s com kt tg (w2 ++ ';' :: tail)) (ht : tail.all isWsChar = true) :
    CoreDecomp (strip s) com kt tg (w2 ++ [';']) := by
  obtain ⟨cpre, kw1, kw2, wsp, hs, hcp, hk1, hkt, hk2, hw1, hw2, ht1, ht2⟩ := h
  have hs2 : s = (cpre ++ kw1 ++ kt ++ kw2 ++ wsp ++ ['"'] ++ tg ++ ['"'] ++ w2 ++ [';']) ++ tail := by
    rw [hs]
    simp
  have hrs : rstrip s = cpre ++ kw1 ++ kt ++ kw2 ++ wsp ++ ['"'] ++ tg ++ ['"'] ++ w2 ++ [';'] := by
    rw [hs2, rstrip_append_ws ht]
    exact rstrip_append_neg (by decide)
  have hcd2 : CoreDecomp (rstrip s) com kt tg (w2 ++ [';']) := by
    refine ⟨cpre, kw1, kw2, wsp, ?_, hcp, hk1, hkt, hk2, hw1, hw2, ht1, ht2⟩
    rw [hrs]
    simp
  have hls : lstrip (rstrip s) = rstrip s := lstrip_of_coreDecomp hcd2
  have hstrip : strip s = rstrip s := hls
  rw [hstrip]
  exact hcd2

theorem correctionMatch_sound {s core : Line} (h : correctionMatch s = some core) :
    ∃ com kt tg w2 tail, CoreDecomp s com kt tg (w2 ++ ';' :: tail) ∧ w2 ≠ [] ∧
      w2.all isWsChar = true ∧ tail.all isWsChar = true := by
  unfold correctionMatch at h
  split at h
  · exact absurd h (by simp)
  rename_i com0 ktext0 target0 rest0 hcore
  split at h
  · exact absurd h (by simp)
  rename_i c cs
  split at h
  swap
  · exact absurd h (by simp)
  rename_i hws
  split at h
  · exact absurd h (by simp)
  rename_i d tail hdw
  split at h
  swap
  · exact absurd h (by simp)
  rename_i hd
  split at h
  swap
  · exact absurd h (by simp)
  rename_i htail
  subst hd
  have hcs : cs = cs.takeWhile isWsChar ++ ';' :: tail := by
    conv_lhs => rw [← List.takeWhile_append_dropWhile (p := isWsChar) (l := cs)]
    rw [show cs.dropWhile isWsChar = dropWs cs from rfl, hdw]
  refine ⟨com0, ktext0, target0, c :: cs.takeWhile isWsChar, tail, ?_, by simp, ?_, htail⟩
  · have h2 := matchDirCore_sound hcore
    have h3 : (c :: cs.takeWhile isWsChar) ++ ';' :: tail = c :: cs := by
      rw [List.cons_append, ← hcs]
    rw [← h3] at h2
    exact h2
  · rw [List.all_cons, hws]
    rw [all_takeWhile]
    rfl

theorem corr_implies_lenient {l core : Line}
    (h : correctionMatch (rstripCRLF l) = some core) :
    (dirMatch false (strip l)).isSome = true := by
  obtain ⟨com, kt, tg, w2, tail, hcd, _, hwall, ht⟩ := correctionMatch_sound h
  have h2 : CoreDecomp (strip (rstripCRLF l)) com kt tg (w2 ++ [';']) :=
    strip_of_coreDecomp_wsSemi hcd ht
  rw [strip_rstripCRLF]
  have h3 : dirMatch false (strip (rstripCRLF l)) = some (com, kt, tg) :=
    dirMatch_lenient_complete h2 hwall
  rw [h3]
  rfl

theorem correctLine_flag_false {l : Line} (h : dirMatch false (strip l) = none) :
    (correctLine l).2 = false := by
  unfold correctLine
  cases hcm : correctionMatch (rstripCRLF l) with
  | none => simp only [hcm]
  | some core =>
    exfalso
    have h2 := corr_implies_lenient hcm
    rw [h] at h2
    simp at h2

/-- The directive line of `ProxyEntry.to_conf_strings`. -/
def dirLineOf (p : ProxyEntry) : Line :=
  (if p.enabled then [] else "# ".data) ++
    "Acquire::".data ++ p.proxy_type ++ "::Proxy \"".data ++ p.url ++ "\";".data

theorem toConfStrings_eq (p : ProxyEntry) :
    toConfStrings p =
      (if p.name.isEmpty then [] else [annPrefixStr ++ p.name]) ++ [dirLineOf p] := by
  unfold toConfStrings dirLineOf
  simp

theorem dirLine_decomp {p : ProxyEntry} (hg : GoodEntry p) :
    CoreDecomp (dirLineOf p) (!p.enabled) p.proxy_type p.url [';'] := by
  obtain ⟨hu1, hu2, _, _, _, hstd⟩ := hg
  refine ⟨if p.enabled then [] else ['#', ' '], "Acquire::".data, "::Proxy".data, [' '],
    ?_, ?_, by decide, std_kind hstd, by decide, by simp, by decide, hu1, hu2⟩
  · unfold dirLineOf
    rw [show ("::Proxy \"".data : Line) = "::Proxy".data ++ [' '] ++ ['"'] from by decide]
    rw [show ("\";".data : Line) = ['"'] ++ [';'] from by decide]
    cases p.enabled
    · rw [show ("# ".data : Line) = ['#', ' '] from by decide]
      simp
    · simp
  · cases p.enabled
    · exact ⟨[' '], rfl, by decide⟩
    · rfl

theorem dirLine_dirMatch {p : ProxyEntry} (hg : GoodEntry p) :
    dirMatch false (dirLineOf p) = some (!p.enabled, p.proxy_type, p.url) := by
  have h := dirLine_decomp hg
  have h2 : CoreDecomp (dirLineOf p) (!p.enabled) p.proxy_type p.url ([] ++ ';' :: []) := h
  exact dirMatch_lenient_complete h2 rfl

theorem dirLine_strip {p : ProxyEntry} (hg : GoodEntry p) :
    strip (dirLineOf p ++ ['\n']) = dirLineOf p := by
  rw [strip_newline]
  obtain ⟨cpre, kw1, kw2, wsp, hs, hcp, hk1, hkt, hk2, hw1, hw2, ht1, ht2⟩ := dirLine_decomp hg
  have hrs : rstrip (dirLineOf p) = dirLineOf p := by
    rw [hs]
    rw [show (cpre ++ kw1 ++ p.proxy_type ++ kw2 ++ wsp ++ ['"'] ++ p.url ++ ['"'] ++ [';'] : Line)
      = (cpre ++ kw1 ++ p.proxy_type ++ kw2 ++ wsp ++ ['"'] ++ p.url ++ ['"']) ++ [';'] from by simp]
    exact rstrip_append_neg (by decide)
  unfold strip
  rw [hrs]
  exact lstrip_of_coreDecomp ⟨cpre, kw1, kw2, wsp, hs, hcp, hk1, hkt, hk2, hw1, hw2, ht1, ht2⟩

theorem annMatch_hash_ne {c : Char} {r : Line} (h : c ≠ '#') :
    annMatch ('#' :: c :: r) = none := by
  have hk : matchCI annPrefixStripped ('#' :: c :: r) = none := by
    rw [show (annPrefixStripped : Line) = '#' :: '#' :: " APT Proxy Editor Name:".data
      from by decide]
    rw [show matchCI ('#' :: '#' :: " APT Proxy Editor Name:".data) ('#' :: c :: r)
      = matchCI ('#' :: " APT Proxy Editor Name:".data) (c :: r) from by
        simp [matchCI]]
    apply matchCI_none_head
    intro hcon
    exact h (low_inv_nonletter (Or.inl (by decide)) hcon)
  unfold annMatch
  rw [hk]

theorem dirLine_annMatch {p : ProxyEntry} : annMatch (dirLineOf p) = none := by
  unfold dirLineOf
  cases hp : p.enabled
  · rw [if_neg (by simp)]
    rw [show ("# ".data : Line) = ['#', ' '] from by decide]
    rw [show ((['#', ' '] : Line) ++ "Acquire::".data ++ p.proxy_type ++ "::Proxy \"".data ++
        p.url ++ "\";".data) =
      '#' :: ' ' :: ("Acquire::".data ++ p.proxy_type ++ "::Proxy \"".data ++
        p.url ++ "\";".data) from by simp]
    exact annMatch_hash_ne (by decide)
  · rw [if_pos rfl]
    rw [show (([] : Line) ++ "Acquire::".data ++ p.proxy_type ++ "::Proxy \"".data ++
        p.url ++ "\";".data) =
      'A' :: ("cquire::".data ++ p.proxy_type ++ "::Proxy \"".data ++
        p.url ++ "\";".data) from by
        rw [show ("Acquire::".data : Line) = 'A' :: "cquire::".data from by decide]
        simp]
    exact annMatch_none_of_head_ne (by decide)

theorem dirLine_clean {p : ProxyEntry} (hg : GoodEntry p) :
    ∀ c ∈ dirLineOf p, c ≠ '\n' ∧ c ≠ '\r' := by
  obtain ⟨_, _, hn1, hr1, _, hstd⟩ := hg
  intro c hc
  unfold dirLineOf at hc
  simp only [List.append_assoc, List.mem_append] at hc
  rcases hc with hc | hc | hc | hc | hc | hc
  · cases hp : p.enabled
    · rw [hp] at hc
      rw [if_neg (by simp)] at hc
      exact (show ∀ x ∈ ("# ".data : Line), x ≠ '\n' ∧ x ≠ '\r' from by decide) c hc
    · rw [hp] at hc
      rw [if_pos rfl] at hc
      simp at hc
  · exact (show ∀ x ∈ ("Acquire::".data : Line), x ≠ '\n' ∧ x ≠ '\r' from by decide) c hc
  · exact std_clean hstd c hc
  · exact (show ∀ x ∈ ("::Proxy \"".data : Line), x ≠ '\n' ∧ x ≠ '\r' from by decide) c hc
  · exact ⟨fun he => hn1 (he ▸ hc), fun he => hr1 (he ▸ hc)⟩
  · exact (show ∀ x ∈ ("\";".data : Line), x ≠ '\n' ∧ x ≠ '\r' from by decide) c hc

theorem ann_line_strip {nm : Line} (h : GoodName nm) (hne : nm ≠ []) :
    strip ((annPrefixStr ++ nm) ++ ['\n']) = annPrefixStr ++ nm := by
  rw [strip_newline]
  obtain ⟨y, d, hy, hd⟩ := strip_fix_last h.1 hne
  have hrs : rstrip (annPrefixStr ++ nm) = annPrefixStr ++ nm := by
    rw [hy]
    rw [show annPrefixStr ++ (y ++ [d]) = (annPrefixStr ++ y) ++ [d] from by simp]
    exact rstrip_append_neg hd
  unfold strip
  rw [hrs]
  rw [show annPrefixStr ++ nm = '#' :: ("# APT Proxy Editor Name: ".data ++ nm) from by
    rw [show (annPrefixStr : Line) = '#' :: "# APT Proxy Editor Name: ".data from by decide]
    simp]
  exact lstrip_cons_neg (by decide)

theorem ann_line_match {nm : Line} (h : GoodName nm) :
    annMatch (annPrefixStr ++ nm) = some nm := by
  obtain ⟨hs, hn, _⟩ := h
  have h1 : matchCI annPrefixStripped (annPrefixStr ++ nm) = some (' ' :: nm) := by
    rw [show (annPrefixStr : Line) = annPrefixStripped ++ [' '] from by decide]
    rw [show (annPrefixStripped ++ [' ']) ++ nm = annPrefixStripped ++ (' ' :: nm) from by simp]
    exact matchCI_complete annPrefixStripped annPrefixStripped (' ' :: nm) rfl
  unfold annMatch
  rw [h1]
  have h2 : dropWs (' ' :: nm) = nm := by
    unfold dropWs
    rw [List.dropWhile_cons, if_pos (by decide)]
    exact lstrip_of_strip_fix hs
  show some ((dropWs (' ' :: nm)).takeWhile (fun c => c != '\n')) = some nm
  rw [h2]
  rw [takeWhile_all_eq (fun c hc => by
    have h3 : c ≠ '\n' := fun he => hn (he ▸ hc)
    simpa using h3)]

theorem matchDirCore_dhash (r : Line) : matchDirCore ('#' :: '#' :: r) = none := by
  have h1 : matchComment ('#' :: '#' :: r) = (true, '#' :: r) := rfl
  unfold matchDirCore
  simp only [h1]
  rw [matchCI_none_head (show toLowerAscii '#' ≠ toLowerAscii 'a' from by decide)]

theorem correctionMatch_rest_semi {s : Line} {a : Bool} {b c : Line}
    (h : matchDirCore s = some (a, b, c, [';'])) : correctionMatch s = none := by
  unfold correctionMatch
  simp only [h]
  rw [if_neg (by decide)]

theorem correctLine_flag_of_none {l : Line} (h : correctionMatch (rstripCRLF l) = none) :
    (correctLine l).2 = false := by
  unfold correctLine
  simp only [h]

theorem annLine_corr_none {nm : Line} (h : GoodName nm) :
    correctionMatch (rstripCRLF ((annPrefixStr ++ nm) ++ ['\n'])) = none := by
  have hclean : ∀ c ∈ annPrefixStr ++ nm, c ≠ '\n' ∧ c ≠ '\r' := by
    intro c hc
    rcases List.mem_append.mp hc with h2 | h2
    · exact (show ∀ x ∈ (annPrefixStr : Line), x ≠ '\n' ∧ x ≠ '\r' from by decide) c h2
    · exact ⟨fun he => h.2.1 (he ▸ h2), fun he => h.2.2 (he ▸ h2)⟩
  rw [rstripCRLF_of_clean hclean]
  rw [show annPrefixStr ++ nm = '#' :: '#' :: (" APT Proxy Editor Name: ".data ++ nm) from by
    rw [show (annPrefixStr : Line) = '#' :: '#' :: " APT Proxy Editor Name: ".data from by decide]
    simp]
  unfold correctionMatch
  rw [matchDirCore_dhash]

theorem dirLine_corr_none {p : ProxyEntry} (hg : GoodEntry p) :
    correctionMatch (rstripCRLF (dirLineOf p ++ ['\n'])) = none := by
  rw [rstripCRLF_of_clean (dirLine_clean hg)]
  exact correctionMatch_rest_semi (matchDirCore_complete (dirLine_decomp hg))

theorem parseStep_skip {st : ParseState} {n : Nat} {l : Line}
    (hdir : dirMatch false (strip l) = none)
    (hann : matchCI annPrefixStripped (strip l) = none)
    (hls : st.lastSeenName = none) :
    (parseStep false st n l).proxies = st.proxies ∧
    (parseStep false st n l).lastSeenName = none := by
  have hann2 : annMatch (strip l) = none := by
    unfold annMatch
    rw [hann]
  unfold parseStep
  dsimp only
  simp only [hann2, hdir]
  cases hs : strip l with
  | nil => simp
  | cons c r =>
    by_cases hc : c = '#'
    · simp only [if_pos hc]
      simp [hls]
    · simp only [if_neg hc]
      split
      · simp
      · simp

theorem runParse_skip : ∀ (ls : List Line),
    (∀ l ∈ ls, dirMatch false (strip l) = none ∧ matchCI annPrefixStripped (strip l) = none) →
    ∀ (st : ParseState) (n : Nat), st.lastSeenName = none →
    (runParseAux false st n ls).proxies = st.proxies ∧
    (runParseAux false st n ls).lastSeenName = none := by
  intro ls
  induction ls with
  | nil =>
    intro _ st n hls
    exact ⟨rfl, hls⟩
  | cons l ls2 ih =>
    intro h st n hls
    rw [runParseAux_cons]
    obtain ⟨h1, h2⟩ := h l (by simp)
    obtain ⟨hp, hn⟩ := parseStep_skip h1 h2 hls
    obtain ⟨hp2, hn2⟩ := ih (fun x hx => h x (by simp [hx])) (parseStep false st n l) (n + 1) hn
    exact ⟨hp2.trans hp, hn2⟩

theorem parseStep_ann {strict : Bool} {st : ParseState} {n : Nat} {l g : Line}
    (h : annMatch (strip l) = some g) :
    parseStep strict st n l =
      { st with collected := st.collected ++ [l], lastSeenName := some (strip g) } := by
  unfold parseStep
  dsimp only
  rw [h]

theorem parseStep_dir {strict : Bool} {st : ParseState} {n : Nat} {l : Line}
    {com : Bool} {ktext url : Line}
    (hann : annMatch (strip l) = none) (hdir : dirMatch strict (strip l) = some (com, ktext, url)) :
    parseStep strict st n l =
      { st with
        nextId := st.nextId + 1,
        proxies := st.proxies ++
          [mkProxyEntry (st.nextId + 1) (upS ktext) url (!com)
            (match st.lastSeenName with | some nm => nm | none => []) (st.collected ++ [l])],
        lastSeenName := none,
        collected := [] } := by
  unfold parseStep
  dsimp only
  rw [hann, hdir]

theorem reparse_entry_step (p : ProxyEntry) (hg : GoodEntry p) (st : ParseState) (n : Nat)
    (hls : st.lastSeenName = none) :
    ∃ q, (runParseAux false st n (entryLinePieces p)).proxies = st.proxies ++ [q] ∧
      entrySig q = entrySig p ∧
      (runParseAux false st n (entryLinePieces p)).lastSeenName = none := by
  have hstd := hg.2.2.2.2.2
  have hup : upS (upS p.proxy_type) = p.proxy_type := by
    rw [upS_idem]
    exact upS_std hstd
  unfold entryLinePieces
  rw [toConfStrings_eq]
  by_cases hne : p.name.isEmpty
  · -- unnamed entry: a single directive line
    rw [if_pos hne]
    have hnm : p.name = [] := by
      cases hnn : p.name with
      | nil => rfl
      | cons c r => rw [hnn] at hne; simp at hne
    simp only [List.nil_append, List.map_cons, List.map_nil]
    rw [runParseAux_cons, runParseAux_nil]
    rw [parseStep_dir (by rw [dirLine_strip hg]; exact dirLine_annMatch)
      (by rw [dirLine_strip hg]; exact dirLine_dirMatch hg)]
    refine ⟨_, rfl, ?_, rfl⟩
    unfold entrySig mkProxyEntry
    simp only [hls, hup, Bool.not_not, hnm]
  · -- named entry: annotation line then directive line
    rw [if_neg hne]
    have hnm : p.name ≠ [] := by
      cases hnn : p.name with
      | nil => rw [hnn] at hne; simp at hne
      | cons c r => simp
    have hgn : GoodName p.name := hg.2.2.2.2.1
    simp only [List.cons_append, List.nil_append, List.map_cons, List.map_nil]
    rw [runParseAux_cons]
    have hstep1 : parseStep false st n ((annPrefixStr ++ p.name) ++ ['\n']) =
        { st with collected := st.collected ++ [(annPrefixStr ++ p.name) ++ ['\n']],
                  lastSeenName := some p.name } := by
      rw [parseStep_ann (by rw [ann_line_strip hgn hnm]; exact ann_line_match hgn)]
      rw [hgn.1]
    rw [hstep1]
    rw [runParseAux_cons, runParseAux_nil]
    rw [parseStep_dir (by rw [dirLine_strip hg]; exact dirLine_annMatch)
      (by rw [dirLine_strip hg]; exact dirLine_dirMatch hg)]
    refine ⟨_, rfl, ?_, rfl⟩
    unfold entrySig mkProxyEntry
    simp only [hup, Bool.not_not]

theorem reparse_entries : ∀ (T : List ProxyEntry), (∀ p ∈ T, GoodEntry p) →
    ∀ (st : ParseState) (n : Nat), st.lastSeenName = none →
    ∃ Q, (runParseAux false st n (T.map entryLinePieces).flatten).proxies = st.proxies ++ Q ∧
      Q.map entrySig = T.map entrySig ∧
      (runParseAux false st n (T.map entryLinePieces).flatten).lastSeenName = none := by
  intro T
  induction T with
  | nil =>
    intro _ st n hls
    exact ⟨[], by simp [runParseAux_nil], rfl, hls⟩
  | cons p T2 ih =>
    intro hg st n hls
    rw [List.map_cons, List.flatten_cons]
    rw [runParseAux_append]
    obtain ⟨q, hq1, hq2, hq3⟩ := reparse_entry_step p (hg p (by simp)) st n hls
    obtain ⟨Q2, hQ1, hQ2, hQ3⟩ := ih (fun x hx => hg x (by simp [hx])) _
      (n + (entryLinePieces p).length) hq3
    refine ⟨q :: Q2, ?_, ?_, hQ3⟩
    · rw [hQ1, hq1]
      simp
    · simp only [List.map_cons, hq2, hQ2]

/-- Whether the save loop will emit the entry after the current one. -/
def headEmits : List ProxyEntry → Bool
  | [] => false
  | q :: _ => emits q

theorem renderPieces_cons (p : ProxyEntry) (rest : List ProxyEntry) :
    renderPieces (p :: rest) =
      (if emits p then entryLinePieces p ++
        (if !p.name.isEmpty && headEmits rest then [['\n']] else []) else []) ++
        renderPieces rest := by
  cases rest <;> rfl

theorem noBlank_head {p : ProxyEntry} {rest : List ProxyEntry}
    (h : noBlanksB (p :: rest) = true) (he : emits p = true) :
    (!p.name.isEmpty && headEmits rest) = false := by
  cases rest with
  | nil => simp [headEmits]
  | cons q r2 =>
    show (!p.name.isEmpty && emits q) = false
    by_cases hq : emits q = true
    · unfold noBlanksB at h
      rw [Bool.and_eq_true] at h
      have h2 := h.1
      rw [he, hq] at h2
      simp only [Bool.and_self, Bool.not_true, Bool.false_or] at h2
      rw [h2, hq]
      simp
    · rw [Bool.not_eq_true] at hq
      rw [hq]
      simp

theorem renderPieces_flat : ∀ (S : List ProxyEntry), noBlanksB S = true →
    renderPieces S = ((S.filter emits).map entryLinePieces).flatten := by
  intro S
  induction S with
  | nil => intro _; rfl
  | cons p rest ih =>
    intro h
    have hrest := ih (noBlanksB_of_cons h)
    rw [renderPieces_cons, hrest, List.filter_cons]
    by_cases he : emits p = true
    · rw [if_pos he, if_pos he]
      rw [List.map_cons, List.flatten_cons]
      rw [if_neg (by rw [noBlank_head h he]; simp)]
      simp
    · rw [if_neg he, if_neg he]
      simp

theorem noBlanksB_append_left (ys : List ProxyEntry) : ∀ (xs : List ProxyEntry),
    noBlanksB (xs ++ ys) = true → noBlanksB xs = true := by
  intro xs
  induction xs with
  | nil => intro _; rfl
  | cons x xs2 ih =>
    cases xs2 with
    | nil => intro _; rfl
    | cons y r =>
      intro h
      rw [List.cons_append, List.cons_append] at h
      unfold noBlanksB at h ⊢
      rw [Bool.and_eq_true] at h ⊢
      refine ⟨h.1, ?_⟩
      exact ih (by rw [List.cons_append]; exact h.2)

theorem noBlanksB_all_nonemit : ∀ (ys : List ProxyEntry),
    (∀ q ∈ ys, emits q = false) → noBlanksB ys = true := by
  intro ys
  induction ys with
  | nil => intro _; rfl
  | cons y ys2 ih =>
    cases ys2 with
    | nil => intro _; rfl
    | cons z r =>
      intro h
      unfold noBlanksB
      rw [Bool.and_eq_true]
      constructor
      · rw [h y (by simp)]
        simp
      · exact ih (fun q hq => h q (by simp [hq]))

theorem noBlanksB_append_nonemit : ∀ (xs : List ProxyEntry) {ys : List ProxyEntry},
    noBlanksB xs = true → (∀ q ∈ ys, emits q = false) → noBlanksB (xs ++ ys) = true := by
  intro xs
  induction xs with
  | nil =>
    intro ys _ hy
    exact noBlanksB_all_nonemit ys hy
  | cons x xs2 ih =>
    intro ys hx hy
    cases xs2 with
    | nil =>
      rw [List.cons_append, List.nil_append]
      cases ys with
      | nil => rfl
      | cons y r =>
        unfold noBlanksB
        rw [Bool.and_eq_true]
        constructor
        · rw [hy y (by simp)]
          simp
        · exact noBlanksB_all_nonemit _ (fun q hq => hy q (by simp [hq]))
    | cons z r =>
      rw [List.cons_append, List.cons_append]
      unfold noBlanksB
      rw [Bool.and_eq_true]
      unfold noBlanksB at hx
      rw [Bool.and_eq_true] at hx
      refine ⟨hx.1, ?_⟩
      have h2 := ih hx.2 hy
      rw [List.cons_append] at h2
      exact h2

theorem all_emits_of_sig : ∀ {xs ys : List ProxyEntry},
    xs.map entrySig = ys.map entrySig → (∀ p ∈ ys, emits p = true) →
    ∀ p ∈ xs, emits p = true := by
  intro xs
  induction xs with
  | nil =>
    intro ys _ _ p hp
    simp at hp
  | cons x xs2 ih =>
    intro ys h hy p hp
    cases ys with
    | nil => simp at h
    | cons y ys2 =>
      simp only [List.map_cons, List.cons.injEq] at h
      rcases List.mem_cons.mp hp with hp | hp
      · subst hp
        rw [emits_sig h.1]
        exact hy y (by simp)
      · exact ih h.2 (fun q hq => hy q (by simp [hq])) p hp

theorem isEmpty_false_of_ne_nil {α : Type} {l : List α} (h : l ≠ []) :
    l.isEmpty = false := by
  cases l with
  | nil => exact absurd rfl h
  | cons x r => rfl

theorem getLastD_concat_eq {α : Type} (x : α) (xs : List α) (d : α) :
    (xs ++ [x]).getLastD d = x :=
  List.getLastD_concat d x xs

theorem mem_preservedOf {l : Line} {ls : List Line} (h : l ∈ preservedOf ls) :
    dirMatch false (strip l) = none ∧ matchCI annPrefixStripped (strip l) = none := by
  unfold preservedOf at h
  have h2 := List.mem_filter.mp h
  obtain ⟨_, h3⟩ := h2
  rw [Bool.and_eq_true] at h3
  obtain ⟨hd, ha⟩ := h3
  constructor
  · cases hc : dirMatch false (strip l) with
    | none => rfl
    | some v => rw [hc] at hd; simp at hd
  · cases hc : matchCI annPrefixStripped (strip l) with
    | none => rfl
    | some v => rw [hc] at ha; simp at ha

theorem preservedOf_idem (ls : List Line) : preservedOf (preservedOf ls) = preservedOf ls := by
  unfold preservedOf
  apply filter_all_true
  intro x hx
  exact (List.mem_filter.mp hx).2

theorem preservedOf_append (a b : List Line) :
    preservedOf (a ++ b) = preservedOf a ++ preservedOf b := by
  unfold preservedOf
  exact List.filter_append a b

theorem annLine_not_preserved {nm : Line} (h : GoodName nm) (hne : nm ≠ []) :
    (!(dirMatch false (strip ((annPrefixStr ++ nm) ++ ['\n']))).isSome &&
     !(matchCI annPrefixStripped (strip ((annPrefixStr ++ nm) ++ ['\n']))).isSome) = false := by
  rw [ann_line_strip h hne]
  have h1 : matchCI annPrefixStripped (annPrefixStr ++ nm) = some (' ' :: nm) := by
    rw [show (annPrefixStr : Line) = annPrefixStripped ++ [' '] from by decide]
    rw [show (annPrefixStripped ++ [' ']) ++ nm = annPrefixStripped ++ (' ' :: nm) from by simp]
    exact matchCI_complete annPrefixStripped annPrefixStripped (' ' :: nm) rfl
  rw [h1]
  simp

theorem dirLine_not_preserved {p : ProxyEntry} (hg : GoodEntry p) :
    (!(dirMatch false (strip (dirLineOf p ++ ['\n']))).isSome &&
     !(matchCI annPrefixStripped (strip (dirLineOf p ++ ['\n']))).isSome) = false := by
  rw [dirLine_strip hg, dirLine_dirMatch hg]
  simp

theorem entryPieces_shape {p : ProxyEntry} {l : Line} (hl : l ∈ entryLinePieces p) :
    (¬p.name.isEmpty = true ∧ l = (annPrefixStr ++ p.name) ++ ['\n']) ∨ l = dirLineOf p ++ ['\n'] := by
  unfold entryLinePieces at hl
  rw [toConfStrings_eq] at hl
  obtain ⟨x, hx, hmap⟩ := List.mem_map.mp hl
  by_cases hne : p.name.isEmpty
  · rw [if_pos hne, List.nil_append] at hx
    have h2 := List.mem_singleton.mp hx
    subst h2
    exact Or.inr hmap.symm
  · rw [if_neg hne] at hx
    rcases List.mem_append.mp hx with h2 | h2
    · have h3 := List.mem_singleton.mp h2
      subst h3
      exact Or.inl ⟨hne, hmap.symm⟩
    · have h3 := List.mem_singleton.mp h2
      subst h3
      exact Or.inr hmap.symm

theorem entryLines_NL {p : ProxyEntry} (hg : GoodEntry p) :
    ∀ l ∈ entryLinePieces p, NLLine l ∧ ∀ c ∈ l, c ≠ '\r' := by
  intro l hl
  rcases entryPieces_shape hl with ⟨hne, hl2⟩ | hl2
  · subst hl2
    have hgn : GoodName p.name := hg.2.2.2.2.1
    constructor
    · refine ⟨annPrefixStr ++ p.name, rfl, ?_⟩
      intro hcon
      rcases List.mem_append.mp hcon with h2 | h2
      · exact absurd h2 (by decide)
      · exact hgn.2.1 h2
    · intro c hc he
      subst he
      rcases List.mem_append.mp hc with h2 | h2
      · rcases List.mem_append.mp h2 with h3 | h3
        · exact absurd h3 (by decide)
        · exact hgn.2.2 h3
      · simp at h2
  · subst hl2
    constructor
    · refine ⟨dirLineOf p, rfl, ?_⟩
      intro hcon
      exact (dirLine_clean hg _ hcon).1 rfl
    · intro c hc he
      subst he
      rcases List.mem_append.mp hc with h2 | h2
      · exact (dirLine_clean hg _ h2).2 rfl
      · simp at h2

theorem entryLine_flag_false {p : ProxyEntry} (hg : GoodEntry p) :
    ∀ l ∈ entryLinePieces p, (correctLine l).2 = false := by
  intro l hl
  rcases entryPieces_shape hl with ⟨_, hl2⟩ | hl2
  · subst hl2
    exact correctLine_flag_of_none (annLine_corr_none hg.2.2.2.2.1)
  · subst hl2
    exact correctLine_flag_of_none (dirLine_corr_none hg)

theorem entryLine_not_preserved {p : ProxyEntry} (hg : GoodEntry p) :
    ∀ l ∈ entryLinePieces p,
    (!(dirMatch false (strip l)).isSome && !(matchCI annPrefixStripped (strip l)).isSome) = false := by
  intro l hl
  rcases entryPieces_shape hl with ⟨hne, hl2⟩ | hl2
  · subst hl2
    apply annLine_not_preserved hg.2.2.2.2.1
    intro hcon
    rw [hcon] at hne
    simp at hne
  · subst hl2
    exact dirLine_not_preserved hg

theorem fileLines_eq {text : List Char} (cw bk wr : Bool)
    (H1 : translateNewlines text = [] ∨ ∃ b, translateNewlines text = b ++ ['\n']) :
    splitLines (translateNewlines (if strictOf text cw bk wr
      then (correctLines (splitLines (translateNewlines text))).1.flatten else text)) =
    ltpOf text cw bk wr := by
  unfold ltpOf
  by_cases hS : strictOf text cw bk wr = true
  · rw [if_pos hS, if_pos hS]
    have hlines : ∀ l ∈ (correctLines (splitLines (translateNewlines text))).1,
        NLLine l ∧ ∀ c ∈ l, c ≠ '\r' := by
      have h2 := ltp_NL cw bk wr H1
      unfold ltpOf at h2
      rw [if_pos hS] at h2
      exact h2
    have hcr : '\r' ∉ (correctLines (splitLines (translateNewlines text))).1.flatten := by
      intro hcon
      obtain ⟨x, hx, hc⟩ := List.mem_flatten.mp hcon
      exact (hlines x hx).2 '\r' hc rfl
    rw [translate_eq_self hcr]
    exact splitLines_flatten_of_NL _ (fun l hl => (hlines l hl).1)
  · rw [if_neg hS, if_neg hS]

theorem savePieces_some (entries : List ProxyEntry) (t : List Char) :
    savePieces entries (some t) =
      preservedOf (splitLines (translateNewlines t)) ++
        (if !(preservedOf (splitLines (translateNewlines t))).isEmpty && !entries.isEmpty &&
            !(strip ((preservedOf (splitLines (translateNewlines t))).getLastD [])).isEmpty
         then [['\n']] else []) ++ renderPieces entries := rfl

theorem saveContent_eq (entries : List ProxyEntry) (o : Option (List Char)) :
    saveContent entries o = (savePieces entries o).flatten := rfl

theorem mem_if_singleton {α : Type} {c : Prop} [Decidable c] {x y : α}
    (h : y ∈ (if c then [x] else [])) : y = x := by
  split at h
  · exact List.mem_singleton.mp h
  · exact absurd h (by simp)

theorem mem_of_preservedOf {l : Line} {ls : List Line} (h : l ∈ preservedOf ls) : l ∈ ls := by
  unfold preservedOf at h
  exact (List.mem_filter.mp h).1

theorem correctLines_snd (ls : List Line) :
    (correctLines ls).2 = ls.any (fun l => (correctLine l).2) := rfl

theorem sep_cond_transfer {a d g1 g2 : Bool} (h : (a && g1 && d) = false) (h1 : g1 = true)
    (h2 : g2 = true) : (a && g2 && d) = false := by
  subst h1
  subst h2
  exact h

theorem roundTrip_core (text : List Char) (cw bk wr cw2 bk2 wr2 : Bool)
    (H1 : translateNewlines text = [] ∨ ∃ b, translateNewlines text = b ++ ['\n'])
    (H2 : noBlanksB (loadOut text cw bk wr) = true)
    (sepL : List (List Char))
    (hsepElem : ∀ l ∈ sepL, l = ['\n'])
    (hout1 : firstSave text cw bk wr =
      (preservedOf (ltpOf text cw bk wr) ++ sepL ++
        (((loadOut text cw bk wr).filter emits).map entryLinePieces).flatten).flatten)
    (hsep2 : (!(preservedOf (ltpOf text cw bk wr) ++ sepL).isEmpty &&
        !(loadOut (firstSave text cw bk wr) cw2 bk2 wr2).isEmpty &&
        !(strip ((preservedOf (ltpOf text cw bk wr) ++ sepL).getLastD [])).isEmpty) = false) :
    secondSave text cw bk wr cw2 bk2 wr2 = firstSave text cw bk wr := by
  obtain ⟨P, phs, hEsplit, hPgood, hPemit, hphs⟩ := loadOut_split text cw bk wr H1
  have hTP : (loadOut text cw bk wr).filter emits = P := by
    rw [hEsplit, List.filter_append, filter_all_true hPemit, filter_all_false hphs,
      List.append_nil]
  have hTgood : ∀ p ∈ (loadOut text cw bk wr).filter emits, GoodEntry p := by
    rw [hTP]
    exact hPgood
  have hTemit : ∀ p ∈ (loadOut text cw bk wr).filter emits, emits p = true := by
    rw [hTP]
    exact hPemit
  have hnbT : noBlanksB ((loadOut text cw bk wr).filter emits) = true := by
    rw [hTP]
    apply noBlanksB_append_left phs
    rw [← hEsplit]
    exact H2
  have hmemPR : ∀ l ∈ preservedOf (ltpOf text cw bk wr),
      (NLLine l ∧ ∀ c ∈ l, c ≠ '\r') ∧
      dirMatch false (strip l) = none ∧ matchCI annPrefixStripped (strip l) = none :=
    fun l hl => ⟨ltp_NL cw bk wr H1 l (mem_of_preservedOf hl), mem_preservedOf hl⟩
  have hmemRL : ∀ l ∈ (((loadOut text cw bk wr).filter emits).map entryLinePieces).flatten,
      (NLLine l ∧ ∀ c ∈ l, c ≠ '\r') ∧ (correctLine l).2 = false ∧
      (!(dirMatch false (strip l)).isSome &&
        !(matchCI annPrefixStripped (strip l)).isSome) = false := by
    intro l hl
    obtain ⟨x, hx, hlx⟩ := List.mem_flatten.mp hl
    obtain ⟨p, hp, hpx⟩ := List.mem_map.mp hx
    subst hpx
    have hg := hTgood p hp
    exact ⟨entryLines_NL hg l hlx, entryLine_flag_false hg l hlx,
      entryLine_not_preserved hg l hlx⟩
  have hL1nl : ∀ l ∈ (preservedOf (ltpOf text cw bk wr) ++ sepL ++
      (((loadOut text cw bk wr).filter emits).map entryLinePieces).flatten),
      NLLine l ∧ ∀ c ∈ l, c ≠ '\r' := by
    intro l hl
    rcases List.mem_append.mp hl with hl | hl
    · rcases List.mem_append.mp hl with hl | hl
      · exact (hmemPR l hl).1
      · rw [hsepElem l hl]
        exact ⟨⟨[], rfl, by simp⟩, by decide⟩
    · exact (hmemRL l hl).1
  have hlines2 : splitLines (translateNewlines (firstSave text cw bk wr)) =
      preservedOf (ltpOf text cw bk wr) ++ sepL ++
        (((loadOut text cw bk wr).filter emits).map entryLinePieces).flatten := by
    rw [hout1]
    have hcr : '\r' ∉ (preservedOf (ltpOf text cw bk wr) ++ sepL ++
        (((loadOut text cw bk wr).filter emits).map entryLinePieces).flatten).flatten := by
      intro hcon
      obtain ⟨x, hx, hc⟩ := List.mem_flatten.mp hcon
      exact (hL1nl x hx).2 '\r' hc rfl
    rw [translate_eq_self hcr]
    exact splitLines_flatten_of_NL _ (fun l hl => (hL1nl l hl).1)
  have hchanged2 :
      (correctLines (splitLines (translateNewlines (firstSave text cw bk wr)))).2 = false := by
    rw [hlines2, correctLines_snd, List.any_eq_false]
    intro l hl
    have hflag : (correctLine l).2 = false := by
      rcases List.mem_append.mp hl with hl | hl
      · rcases List.mem_append.mp hl with hl | hl
        · exact correctLine_flag_false (hmemPR l hl).2.1
        · rw [hsepElem l hl]
          decide
      · exact (hmemRL l hl).2.1
    rw [hflag]
    simp
  have hstrict2 : strictOf (firstSave text cw bk wr) cw2 bk2 wr2 = false := by
    unfold strictOf
    rw [hchanged2]
    simp
  have hltp2 : ltpOf (firstSave text cw bk wr) cw2 bk2 wr2 =
      preservedOf (ltpOf text cw bk wr) ++ sepL ++
        (((loadOut text cw bk wr).filter emits).map entryLinePieces).flatten := by
    unfold ltpOf
    rw [hstrict2]
    rw [if_neg (by simp)]
    exact hlines2
  have hskipAll : ∀ l ∈ (preservedOf (ltpOf text cw bk wr) ++ sepL),
      dirMatch false (strip l) = none ∧ matchCI annPrefixStripped (strip l) = none := by
    intro l hl
    rcases List.mem_append.mp hl with hl | hl
    · exact (hmemPR l hl).2
    · rw [hsepElem l hl]
      exact ⟨by decide, by decide⟩
  obtain ⟨Q, hQ1, hQ2, hQ3⟩ := reparse_entries ((loadOut text cw bk wr).filter emits) hTgood
    (runParseAux false
      ⟨[], 0, diags0Of (firstSave text cw bk wr) cw2 bk2 wr2, none, []⟩ 0
      (preservedOf (ltpOf text cw bk wr) ++ sepL))
    (0 + (preservedOf (ltpOf text cw bk wr) ++ sepL).length)
    (runParse_skip (preservedOf (ltpOf text cw bk wr) ++ sepL) hskipAll _ 0 rfl).2
  have hst2 : (runParseAux false
      ⟨[], 0, diags0Of (firstSave text cw bk wr) cw2 bk2 wr2, none, []⟩ 0
      (ltpOf (firstSave text cw bk wr) cw2 bk2 wr2)).proxies = Q := by
    rw [hltp2, runParseAux_append, hQ1,
      (runParse_skip (preservedOf (ltpOf text cw bk wr) ++ sepL) hskipAll _ 0 rfl).1]
    simp
  have hE2 : loadOut (firstSave text cw bk wr) cw2 bk2 wr2 =
      (addPlaceholders Q (runParseAux false
        ⟨[], 0, diags0Of (firstSave text cw bk wr) cw2 bk2 wr2, none, []⟩ 0
        (ltpOf (firstSave text cw bk wr) cw2 bk2 wr2)).nextId).1 := by
    rw [loadOut_eq, hstrict2, hst2]
  obtain ⟨phs2, hsplit2, hph2⟩ := addPlaceholders_split Q
    (runParseAux false
      ⟨[], 0, diags0Of (firstSave text cw bk wr) cw2 bk2 wr2, none, []⟩ 0
      (ltpOf (firstSave text cw bk wr) cw2 bk2 wr2)).nextId
  have hE2split : loadOut (firstSave text cw bk wr) cw2 bk2 wr2 = Q ++ phs2 := by
    rw [hE2, hsplit2]
  have hph2emit : ∀ q ∈ phs2, emits q = false := fun q hq =>
    emits_false_shape (hph2 q hq).1 (hph2 q hq).2.1 (hph2 q hq).2.2
  have hQemit : ∀ q ∈ Q, emits q = true := all_emits_of_sig hQ2 hTemit
  have hnbE2 : noBlanksB (loadOut (firstSave text cw bk wr) cw2 bk2 wr2) = true := by
    rw [hE2split]
    exact noBlanksB_append_nonemit Q (noBlanksB_sig hQ2.symm hnbT) hph2emit
  have hrender2 : renderPieces (loadOut (firstSave text cw bk wr) cw2 bk2 wr2) =
      (((loadOut text cw bk wr).filter emits).map entryLinePieces).flatten := by
    rw [renderPieces_flat _ hnbE2, hE2split, List.filter_append, filter_all_true hQemit,
      filter_all_false hph2emit, List.append_nil, map_entryLinePieces_sig hQ2]
  have hpres2 : preservedOf (splitLines (translateNewlines (firstSave text cw bk wr))) =
      preservedOf (ltpOf text cw bk wr) ++ sepL := by
    rw [hlines2, preservedOf_append, preservedOf_append]
    rw [preservedOf_idem]
    rw [show preservedOf sepL = sepL from by
      unfold preservedOf
      apply filter_all_true
      intro x hx
      rw [hsepElem x hx]
      decide]
    rw [show preservedOf
        ((((loadOut text cw bk wr).filter emits).map entryLinePieces).flatten) = [] from by
      unfold preservedOf
      apply filter_all_false
      intro x hx
      exact (hmemRL x hx).2.2]
    simp
  show saveContent (loadOut (firstSave text cw bk wr) cw2 bk2 wr2)
      (some (firstSave text cw bk wr)) = firstSave text cw bk wr
  rw [saveContent_eq, savePieces_some, hpres2, hrender2]
  rw [if_neg (by rw [hsep2]; simp)]
  rw [hout1]
  simp

/-- C1 (amended): serializing the loaded entries, re-parsing the serializer's
output and serializing again is byte-identical provided (a) the file content
is empty or newline-terminated after newline translation, and (b) no emitted
entry carrying a label is immediately followed by another emitted entry —
otherwise the blank separator line written after the labelled entry is
re-read as a preserved line and the output grows by one blank line per
round trip. -/
theorem claim_C1_amended (text : List Char) (cw bk wr cw2 bk2 wr2 : Bool)
    (H1 : translateNewlines text = [] ∨ ∃ b, translateNewlines text = b ++ ['\n'])
    (H2 : noBlanksB (loadOut text cw bk wr) = true) :
    secondSave text cw bk wr cw2 bk2 wr2 = firstSave text cw bk wr := by
  have hr1 : renderPieces (loadOut text cw bk wr) =
      (((loadOut text cw bk wr).filter emits).map entryLinePieces).flatten :=
    renderPieces_flat _ H2
  have hsp1 : savePieces (loadOut text cw bk wr) (fileAfterLoad (.content text cw bk wr)) =
      preservedOf (ltpOf text cw bk wr) ++
        (if !(preservedOf (ltpOf text cw bk wr)).isEmpty && !(loadOut text cw bk wr).isEmpty &&
            !(strip ((preservedOf (ltpOf text cw bk wr)).getLastD [])).isEmpty
         then [['\n']] else []) ++
        (((loadOut text cw bk wr).filter emits).map entryLinePieces).flatten := by
    rw [fileAfterLoad_content]
    have h2 := fileLines_eq cw bk wr H1
    by_cases hS : strictOf text cw bk wr = true
    · rw [if_pos hS]
      rw [if_pos hS] at h2
      rw [savePieces_some, h2, hr1]
    · rw [if_neg hS]
      rw [if_neg hS] at h2
      rw [savePieces_some, h2, hr1]
  have hout1full : firstSave text cw bk wr =
      (preservedOf (ltpOf text cw bk wr) ++
        (if !(preservedOf (ltpOf text cw bk wr)).isEmpty && !(loadOut text cw bk wr).isEmpty &&
            !(strip ((preservedOf (ltpOf text cw bk wr)).getLastD [])).isEmpty
         then [['\n']] else []) ++
        (((loadOut text cw bk wr).filter emits).map entryLinePieces).flatten).flatten := by
    unfold firstSave
    rw [saveContent_eq, hsp1]
  have hEne1 : loadOut text cw bk wr ≠ [] := by
    rw [loadOut_eq]
    exact addPlaceholders_ne_nil _ _
  have hEne2 : loadOut (firstSave text cw bk wr) cw2 bk2 wr2 ≠ [] := by
    rw [loadOut_eq]
    exact addPlaceholders_ne_nil _ _
  by_cases hc1 : (!(preservedOf (ltpOf text cw bk wr)).isEmpty &&
      !(loadOut text cw bk wr).isEmpty &&
      !(strip ((preservedOf (ltpOf text cw bk wr)).getLastD [])).isEmpty) = true
  · rw [if_pos hc1] at hout1full
    apply roundTrip_core text cw bk wr cw2 bk2 wr2 H1 H2 [['\n']]
      (fun l hl => List.mem_singleton.mp hl) hout1full
    rw [getLastD_concat_eq]
    rw [show (strip ['\n'] : Line) = [] from rfl]
    simp
  · rw [if_neg hc1] at hout1full
    apply roundTrip_core text cw bk wr cw2 bk2 wr2 H1 H2 []
      (fun l hl => by simp at hl) hout1full
    rw [List.append_nil]
    rw [Bool.not_eq_true] at hc1
    exact sep_cond_transfer hc1 (by rw [isEmpty_false_of_ne_nil hEne1]; rfl)
      (by rw [isEmpty_false_of_ne_nil hEne2]; rfl)

set_option maxRecDepth 10000

/-- C1 counterexample: with a labelled entry followed by another emitted
entry, the first save writes a blank separator line between them; the second
parse treats that blank line as preserved content, so the second save starts
with an extra blank line and is not byte-identical. -/
theorem claim_C1_counterexample :
    secondSave ("## APT Proxy Editor Name: A\nAcquire::HTTP::Proxy \"u\";\nAcquire::HTTPS::Proxy \"v\";\n").data
        true true true true true true ≠
      firstSave ("## APT Proxy Editor Name: A\nAcquire::HTTP::Proxy \"u\";\nAcquire::HTTPS::Proxy \"v\";\n").data
        true true true := by
  decide

/-- C1 witness: the amended round-trip theorem applied to a newline-terminated
single-directive file. -/
theorem claim_C1_witness :
    (translateNewlines ("Acquire::HTTP::Proxy \"u\";\n").data = [] ∨
      ∃ b, translateNewlines ("Acquire::HTTP::Proxy \"u\";\n").data = b ++ ['\n']) ∧
    noBlanksB (loadOut ("Acquire::HTTP::Proxy \"u\";\n").data true true true) = true ∧
    secondSave ("Acquire::HTTP::Proxy \"u\";\n").data true true true true true true =
      firstSave ("Acquire::HTTP::Proxy \"u\";\n").data true true true :=
  ⟨Or.inr ⟨("Acquire::HTTP::Proxy \"u\";").data, by decide⟩, by decide,
    claim_C1_amended ("Acquire::HTTP::Proxy \"u\";\n").data true true true true true true
      (Or.inr ⟨("Acquire::HTTP::Proxy \"u\";").data, by decide⟩) (by decide)⟩
